import Mathlib

/-!
Verification development for a dual-pane SDL2 text editor (src/main.cpp).

The buffer/cursor/selection mutation engine and the incremental search index
are embedded shallowly:

* a `Cursor` is a (row, col) pair; the source uses C `int`, but every
  reachable cursor coordinate is non-negative (each decrement is guarded by a
  positivity test), so coordinates are modelled as `Nat`; the `< 0` branches
  of `clamp_cursor` are then vacuous and are dropped;
* a line is a `List Char` (the source's `std::string`, one addressable unit
  per element), a buffer is a `List (List Char)` (the source's
  `std::vector<std::string>`);
* `str.substr(p)` is `List.drop p`, `str.substr(p, n)` is
  `(List.drop p).take n`, `str.erase(p, n)` is `take p ++ drop (p+n)`,
  `str.insert(p, t)` is `take p ++ t ++ drop p`, and vector range-erase /
  insert become `take`/`drop` surgery;  out-of-range accesses (which throw or
  are UB in C++) are totalised with `List.getD`;
* rendering, scrolling (which depends on the window height and font metrics)
  and the event loop are outside the model; each keydown-handler branch of
  `main` is one `EditOp`, and the trailing `clamp_cursor(ed)` of the keydown
  handler is applied to exactly the branches that reach it in the source
  (text input and the search-mode jumps `continue` before it).
-/

/-- The source's `Cursor`: a (row, column) coordinate. -/
structure Cursor where
  row : Nat
  col : Nat
deriving DecidableEq

/-- The source's `Cursor::operator<`: row-major strict order. -/
def cursorLt (a b : Cursor) : Prop :=
  a.row < b.row ∨ (a.row = b.row ∧ a.col < b.col)

instance (a b : Cursor) : Decidable (cursorLt a b) := by
  unfold cursorLt; infer_instance

/-- Per-pane editor state, as in the source's `EditorState`. -/
structure EditorState where
  lines : List (List Char)
  cursor : Cursor
  selecting : Bool
  sel_anchor : Cursor
  sel_active : Cursor
  scroll_offset : Nat
  file_path : List Char
  dirty : Bool
deriving DecidableEq

/-- `EditorState::has_selection`: selecting and anchor differs from active. -/
def EditorState.has_selection (ed : EditorState) : Prop :=
  ed.selecting = true ∧ ed.sel_anchor ≠ ed.sel_active

instance (ed : EditorState) : Decidable ed.has_selection := by
  unfold EditorState.has_selection; infer_instance

/-- `get_selection_bounds`: the (start, end) pair sorted by `operator<`. -/
def get_selection_bounds (ed : EditorState) : Cursor × Cursor :=
  if cursorLt ed.sel_anchor ed.sel_active then (ed.sel_anchor, ed.sel_active)
  else (ed.sel_active, ed.sel_anchor)

/-- `clamp_cursor`: pull the cursor back into the valid coordinate space.
The source's `row < 0` / `col < 0` branches are vacuous over `Nat`. -/
def clampPos (lines : List (List Char)) (c : Cursor) : Cursor :=
  let row := if lines.length ≤ c.row then lines.length - 1 else c.row
  let col :=
    if (lines.getD row []).length < c.col then (lines.getD row []).length else c.col
  ⟨row, col⟩

/-- `clamp_cursor` acting on the whole state. -/
def clamp_cursor (ed : EditorState) : EditorState :=
  { ed with cursor := clampPos ed.lines ed.cursor }

/-- The body of the source's `for (r = start.row + 1; r < end.row; ++r)
result += lines[r] + "\n"` loop in `get_selected_text`. -/
def midJoin (lines : List (List Char)) (r stop : Nat) : List Char :=
  if r < stop then
    (lines.getD r []) ++ ['\n'] ++ midJoin lines (r + 1) stop
  else []
termination_by stop - r

/-- `get_selected_text`: extract the text between the selection bounds. -/
def get_selected_text (ed : EditorState) : List Char :=
  if ¬ ed.has_selection then []
  else if (get_selection_bounds ed).1.row = (get_selection_bounds ed).2.row then
    ((ed.lines.getD (get_selection_bounds ed).1.row []).drop
        (get_selection_bounds ed).1.col).take
      ((get_selection_bounds ed).2.col - (get_selection_bounds ed).1.col)
  else
    (ed.lines.getD (get_selection_bounds ed).1.row []).drop
        (get_selection_bounds ed).1.col ++ ['\n'] ++
      midJoin ed.lines ((get_selection_bounds ed).1.row + 1)
        (get_selection_bounds ed).2.row ++
      (ed.lines.getD (get_selection_bounds ed).2.row []).take
        (get_selection_bounds ed).2.col

/-- `std::string::erase(pos, count)` over a char list. -/
def strErase (l : List Char) (pos count : Nat) : List Char :=
  l.take pos ++ l.drop (pos + count)

/-- `delete_selection`: remove the selected span, put the cursor at the
selection start and collapse the selection.  A no-op without an effective
selection. -/
def delete_selection (ed : EditorState) : EditorState :=
  if ¬ ed.has_selection then ed
  else
    let se := get_selection_bounds ed
    let lines1 :=
      if se.1.row = se.2.row then
        ed.lines.set se.1.row
          (strErase (ed.lines.getD se.1.row []) se.1.col (se.2.col - se.1.col))
      else
        let merged := (ed.lines.getD se.1.row []).take se.1.col ++
          (ed.lines.getD se.2.row []).drop se.2.col
        let l1 := ed.lines.set se.1.row merged
        l1.take (se.1.row + 1) ++ l1.drop (se.2.row + 1)
    { ed with lines := lines1, cursor := se.1,
              sel_anchor := se.1, sel_active := se.1, selecting := false }

/-- Split a char list at every newline, keeping empty segments (so the result
always has one more element than the number of newlines). -/
def splitNL : List Char → List (List Char)
  | [] => [[]]
  | c :: cs =>
    if c = '\n' then [] :: splitNL cs
    else
      match splitNL cs with
      | [] => [[c]]
      | p :: ps => (c :: p) :: ps

/-- One pass of the source's `insert_text` loop, one call per newline-separated
segment.  The source scans `text` with `find('\n', pos)`; the segments that
scan visits, in order, are exactly `splitNL text`, and each non-final segment
performs the insert-and-split step while the final one is inserted in place
with the cursor advanced past it. -/
def insertSegs (ed : EditorState) : List (List Char) → EditorState
  | [] => ed
  | [t] =>
    let line := ed.lines.getD ed.cursor.row []
    { ed with
      lines := ed.lines.set ed.cursor.row
        (line.take ed.cursor.col ++ t ++ line.drop ed.cursor.col),
      cursor := ⟨ed.cursor.row, ed.cursor.col + t.length⟩ }
  | part :: rest =>
    let line := ed.lines.getD ed.cursor.row []
    let kept := line.take ed.cursor.col ++ part
    let moved := line.drop ed.cursor.col
    let l1 := ed.lines.set ed.cursor.row kept
    let l2 := l1.take (ed.cursor.row + 1) ++ [moved] ++ l1.drop (ed.cursor.row + 1)
    insertSegs { ed with lines := l2, cursor := ⟨ed.cursor.row + 1, 0⟩ } rest

/-- `insert_text`: insert possibly multi-line text at the cursor. -/
def insert_text (ed : EditorState) (text : List Char) : EditorState :=
  insertSegs ed (splitNL text)

/-- First occurrence of `q` in a char list (`std::string::find` restricted to
a suffix): the least offset where `q` is a prefix. -/
def firstMatch (q : List Char) : List Char → Option Nat
  | [] => if q = [] then some 0 else none
  | c :: cs => if q.isPrefixOf (c :: cs) then some 0 else (firstMatch q cs).map (· + 1)

/-- The scan loop of `update_search_matches` on one line: repeatedly
`find(query, pos)`, record the match, advance `pos` by `query.size()`.
`l` is the yet-unscanned suffix and `base` its offset in the full line.
The `query.empty()` case is unreachable (guarded by the caller). -/
def scanLine (q l : List Char) (base : Nat) : List Nat :=
  if hq : q = [] then []
  else
    match h : firstMatch q l with
    | none => []
    | some p => (base + p) :: scanLine q (l.drop (p + q.length)) (base + p + q.length)
termination_by l.length
decreasing_by
  have h1 : l ≠ [] := by
    intro hl
    subst hl
    simp [firstMatch, hq] at h
  have h2 : 0 < q.length := List.length_pos.mpr hq
  have h3 : 0 < l.length := List.length_pos.mpr h1
  simp only [List.length_drop]
  omega

/-- The row loop of `update_search_matches`: scan each line, pushing matches
as `(row, col)` cursors in row order. -/
def searchRows (q : List Char) : List (List Char) → Nat → List Cursor
  | [], _ => []
  | l :: ls, r => (scanLine q l 0).map (fun c => Cursor.mk r c) ++ searchRows q ls (r + 1)

/-- `update_search_matches`: all non-overlapping matches of `query`, row-major.
Empty query yields no matches (early return in the source). -/
def update_search_matches (lines : List (List Char)) (q : List Char) : List Cursor :=
  if q = [] then [] else searchRows q lines 0

/-- The search-mode text-input handler: recompute the matches, then reset the
current index to 0 when matches exist and to -1 otherwise. -/
def set_query (lines : List (List Char)) (q : List Char) : List Cursor × Int :=
  let ms := update_search_matches lines q
  (ms, if ms.isEmpty then -1 else 0)

/-- `jump_to_search_match`: move cursor to the indexed match and collapse the
selection; no-op when the list is empty or the index is out of range.  The
index is `Nat` here, so the source's `idx < 0` test is vacuous; the scroll
adjustment depends on font metrics and is outside the model. -/
def jump_to_search_match (ed : EditorState) (ms : List Cursor) (idx : Nat) : EditorState :=
  if ms.isEmpty ∨ ms.length ≤ idx then ed
  else
    let c := ms.getD idx ed.cursor
    { ed with cursor := c, sel_anchor := c, sel_active := c, selecting := false }

/-- The per-line carriage-return normalisation of `load_file`:
`if (!line.empty() && line.back() == '\r') line.pop_back()`. -/
def stripCR (l : List Char) : List Char :=
  if l ≠ [] ∧ l.getLast? = some '\r' then l.dropLast else l

/-- Split off the part of a char list before its first newline, together with
the rest after that newline; `none` when there is no newline. -/
def splitFirstNL : List Char → Option (List Char × List Char)
  | [] => none
  | c :: cs =>
    if c = '\n' then some ([], cs)
    else (splitFirstNL cs).map (fun p => (c :: p.1, p.2))

theorem splitFirstNL_some_length :
    ∀ {s : List Char} {pr : List Char × List Char},
      splitFirstNL s = some pr → pr.2.length < s.length := by
  intro s
  induction s with
  | nil => intro pr h; simp [splitFirstNL] at h
  | cons c cs ih =>
    intro pr h
    by_cases hc : c = '\n'
    · rw [splitFirstNL, if_pos hc] at h
      injection h with h2
      subst h2
      simp
    · rw [splitFirstNL, if_neg hc, Option.map_eq_some'] at h
      obtain ⟨p, hp, hpr⟩ := h
      subst hpr
      have := ih hp
      simp only [List.length_cons]
      omega

/-- The `while (std::getline(f, line))` loop of `load_file`: read
newline-terminated records, stripping a trailing carriage return from each;
a final newline terminates the last record rather than opening an empty one. -/
def getLines (s : List Char) : List (List Char) :=
  match s with
  | [] => []
  | c :: cs =>
    match h : splitFirstNL (c :: cs) with
    | none => [stripCR (c :: cs)]
    | some pr => stripCR pr.1 :: getLines pr.2
termination_by s.length
decreasing_by
  exact splitFirstNL_some_length h

/-- `load_file`: `content` is the result of reading `path` (`none` when the
stream failed to open).  On failure the state is untouched; on success the
buffer is replaced (with one empty line if the file was empty), the cursor
and selection reset, the path recorded and the dirty flag cleared. -/
def load_file (ed : EditorState) (path : List Char) (content : Option (List Char)) :
    EditorState :=
  match content with
  | none => ed
  | some s =>
    let ls := getLines s
    let ls := if ls = [] then [[]] else ls
    { ed with lines := ls, cursor := ⟨0, 0⟩, sel_anchor := ⟨0, 0⟩,
              sel_active := ⟨0, 0⟩, selecting := false,
              file_path := path, dirty := false }

/-- Modelled from the spec (the load contract of section 6): the file content
split on line-feed, a trailing carriage-return stripped from each line, with
the convention of section 8 that a single trailing line-feed terminates the
last line instead of contributing an extra empty one (so the empty file and
nothing else yields the single empty line). -/
def loadLinesSpec (s : List Char) : List (List Char) :=
  (if (splitNL s).getLast? = some [] ∧ 1 < (splitNL s).length
   then (splitNL s).dropLast else splitNL s).map stripCR

/-- The 4-space indent unit (the source's `"    "`). -/
def indentU : List Char := [' ', ' ', ' ', ' ']

/-- The Tab-with-selection loop: prefix the indent unit to every row in
`[r1, r2]`.  The source's `for (r = start.row; r <= end.row; ++r)` loop has
independent iterations, so it is modelled as an index-aware map (`r` counts
the absolute row of the head of `ls`). -/
def indentRows (r1 r2 : Nat) : Nat → List (List Char) → List (List Char)
  | _, [] => []
  | r, l :: ls => (if r1 ≤ r ∧ r ≤ r2 then indentU ++ l else l) :: indentRows r1 r2 (r + 1) ls

/-- The Shift+Tab-with-selection loop: rows in `[r1, r2]` whose first four
units are exactly four spaces lose them; all other rows are unchanged. -/
def unindentRows (r1 r2 : Nat) : Nat → List (List Char) → List (List Char)
  | _, [] => []
  | r, l :: ls =>
    (if r1 ≤ r ∧ r ≤ r2 ∧ l.take 4 = indentU then l.drop 4 else l) ::
      unindentRows r1 r2 (r + 1) ls

/-- C's `isalnum` under the default locale, on ASCII. -/
def isalnumC (c : Char) : Bool := c.isAlphanum

/-- Forward scan `while (i < len && p(line[i])) ++i`. -/
def scanFwd (p : Char → Bool) (line : List Char) (i : Nat) : Nat :=
  if h : i < line.length ∧ p (line.getD i ' ') then scanFwd p line (i + 1) else i
termination_by line.length - i
decreasing_by
  omega

/-- Backward scan `while (i > 0 && p(line[i-1])) --i`. -/
def scanBack (p : Char → Bool) (line : List Char) : Nat → Nat
  | 0 => 0
  | i + 1 => if p (line.getD i ' ') then scanBack p line i else i + 1

/-- The `SDL_TEXTINPUT` handler: delete an engaged selection, insert the
typed units into the current line, advance the column, collapse the
selection, mark dirty.  (This branch does not pass through `clamp_cursor`.) -/
def opTextInput (ed : EditorState) (s : List Char) : EditorState :=
  let ed := if ed.has_selection then delete_selection ed else ed
  let line := ed.lines.getD ed.cursor.row []
  let ed :=
    { ed with
      lines := ed.lines.set ed.cursor.row
        (line.take ed.cursor.col ++ s ++ line.drop ed.cursor.col),
      cursor := ⟨ed.cursor.row, ed.cursor.col + s.length⟩ }
  { ed with sel_anchor := ed.cursor, sel_active := ed.cursor,
            selecting := false, dirty := true }

/-- The `SDLK_BACKSPACE` case. -/
def opBackspace (ed : EditorState) : EditorState :=
  let ed1 :=
    if ed.has_selection then delete_selection ed
    else if 0 < ed.cursor.col then
      { ed with
        lines := ed.lines.set ed.cursor.row
          (strErase (ed.lines.getD ed.cursor.row []) (ed.cursor.col - 1) 1),
        cursor := ⟨ed.cursor.row, ed.cursor.col - 1⟩ }
    else if 0 < ed.cursor.row then
      let prev := ed.lines.getD (ed.cursor.row - 1) []
      let cur := ed.lines.getD ed.cursor.row []
      let l1 := ed.lines.set (ed.cursor.row - 1) (prev ++ cur)
      { ed with lines := l1.take ed.cursor.row ++ l1.drop (ed.cursor.row + 1),
                cursor := ⟨ed.cursor.row - 1, prev.length⟩ }
    else ed
  { ed1 with sel_anchor := ed1.cursor, sel_active := ed1.cursor,
             selecting := false, dirty := true }

/-- The `SDLK_DELETE` case. -/
def opDeleteKey (ed : EditorState) : EditorState :=
  let ed1 :=
    if ed.has_selection then delete_selection ed
    else if ed.cursor.col < (ed.lines.getD ed.cursor.row []).length then
      { ed with
        lines := ed.lines.set ed.cursor.row
          (strErase (ed.lines.getD ed.cursor.row []) ed.cursor.col 1) }
    else if ed.cursor.row + 1 < ed.lines.length then
      let l1 := ed.lines.set ed.cursor.row
        ((ed.lines.getD ed.cursor.row []) ++ (ed.lines.getD (ed.cursor.row + 1) []))
      { ed with lines := l1.take (ed.cursor.row + 1) ++ l1.drop (ed.cursor.row + 2) }
    else ed
  { ed1 with sel_anchor := ed1.cursor, sel_active := ed1.cursor,
             selecting := false, dirty := true }

/-- The `Ctrl+D` (delete char in front) case: like `SDLK_DELETE` but with no
selection branch, and -- unlike it -- the dirty flag is not touched. -/
def opCtrlD (ed : EditorState) : EditorState :=
  let ed1 :=
    if ed.cursor.col < (ed.lines.getD ed.cursor.row []).length then
      { ed with
        lines := ed.lines.set ed.cursor.row
          (strErase (ed.lines.getD ed.cursor.row []) ed.cursor.col 1) }
    else if ed.cursor.row + 1 < ed.lines.length then
      let l1 := ed.lines.set ed.cursor.row
        ((ed.lines.getD ed.cursor.row []) ++ (ed.lines.getD (ed.cursor.row + 1) []))
      { ed with lines := l1.take (ed.cursor.row + 1) ++ l1.drop (ed.cursor.row + 2) }
    else ed
  { ed1 with sel_anchor := ed1.cursor, sel_active := ed1.cursor, selecting := false }

/-- The `SDLK_RETURN` / `SDLK_KP_ENTER` case: split the current line at the
cursor. -/
def opReturn (ed : EditorState) : EditorState :=
  let ed := if ed.has_selection then delete_selection ed else ed
  let line := ed.lines.getD ed.cursor.row []
  let l1 := ed.lines.set ed.cursor.row (line.take ed.cursor.col)
  let l2 := l1.take (ed.cursor.row + 1) ++ [line.drop ed.cursor.col] ++
    l1.drop (ed.cursor.row + 1)
  let c : Cursor := ⟨ed.cursor.row + 1, 0⟩
  { ed with lines := l2, cursor := c, sel_anchor := c, sel_active := c,
            selecting := false, dirty := true }

/-- Target position of `SDLK_LEFT`. -/
def arrowLeftPos (ed : EditorState) : Cursor :=
  if 0 < ed.cursor.col then ⟨ed.cursor.row, ed.cursor.col - 1⟩
  else if 0 < ed.cursor.row then
    ⟨ed.cursor.row - 1, (ed.lines.getD (ed.cursor.row - 1) []).length⟩
  else ed.cursor

/-- Target position of `SDLK_RIGHT`. -/
def arrowRightPos (ed : EditorState) : Cursor :=
  if ed.cursor.col < (ed.lines.getD ed.cursor.row []).length then
    ⟨ed.cursor.row, ed.cursor.col + 1⟩
  else if ed.cursor.row + 1 < ed.lines.length then ⟨ed.cursor.row + 1, 0⟩
  else ed.cursor

/-- Target position of `SDLK_UP`. -/
def arrowUpPos (ed : EditorState) : Cursor :=
  if 0 < ed.cursor.row then
    ⟨ed.cursor.row - 1,
      min ed.cursor.col (ed.lines.getD (ed.cursor.row - 1) []).length⟩
  else ed.cursor

/-- Target position of `SDLK_DOWN`. -/
def arrowDownPos (ed : EditorState) : Cursor :=
  if ed.cursor.row + 1 < ed.lines.length then
    ⟨ed.cursor.row + 1,
      min ed.cursor.col (ed.lines.getD (ed.cursor.row + 1) []).length⟩
  else ed.cursor

/-- Move the cursor to `c`; with shift held the selection extends, otherwise
it collapses (the common tail of every arrow case). -/
def applyMove (ed : EditorState) (c : Cursor) (shift : Bool) : EditorState :=
  if shift then { ed with cursor := c, sel_active := c, selecting := true }
  else { ed with cursor := c, sel_anchor := c, sel_active := c, selecting := false }

/-- The `Ctrl+F` (forward word) case: skip a run of alnum units, then a run
of non-alnum units, within the current line. -/
def opWordFwd (ed : EditorState) : EditorState :=
  let line := ed.lines.getD ed.cursor.row []
  let i := scanFwd isalnumC line ed.cursor.col
  let i := scanFwd (fun c => ¬ isalnumC c) line i
  let c : Cursor := ⟨ed.cursor.row, i⟩
  { ed with cursor := c, sel_anchor := c, sel_active := c, selecting := false }

/-- The `Ctrl+B` (backward word) case. -/
def opWordBack (ed : EditorState) : EditorState :=
  let line := ed.lines.getD ed.cursor.row []
  let i := scanBack (fun c => ¬ isalnumC c) line ed.cursor.col
  let i := scanBack isalnumC line i
  let c : Cursor := ⟨ed.cursor.row, i⟩
  { ed with cursor := c, sel_anchor := c, sel_active := c, selecting := false }

/-- The `SDLK_TAB` (indent) case.  With a selection every spanned row gets the
indent unit prefixed and cursor, anchor and active all shift right by 4;
without one the indent unit is inserted at the cursor column (not column 0)
and the cursor shifts right by 4. -/
def opTab (ed : EditorState) : EditorState :=
  if ed.has_selection then
    let se := get_selection_bounds ed
    { ed with lines := indentRows se.1.row se.2.row 0 ed.lines,
              cursor := ⟨ed.cursor.row, ed.cursor.col + 4⟩,
              sel_anchor := ⟨ed.sel_anchor.row, ed.sel_anchor.col + 4⟩,
              sel_active := ⟨ed.sel_active.row, ed.sel_active.col + 4⟩,
              dirty := true }
  else
    let line := ed.lines.getD ed.cursor.row []
    { ed with
      lines := ed.lines.set ed.cursor.row
        (line.take ed.cursor.col ++ indentU ++ line.drop ed.cursor.col),
      cursor := ⟨ed.cursor.row, ed.cursor.col + 4⟩, dirty := true }

/-- The `Shift+Tab` (unindent) case.  With a selection only the lines change
(the cursor is left to the trailing clamp); without one the cursor column
drops by 4, floored at 0, but only when the line actually lost its indent. -/
def opShiftTab (ed : EditorState) : EditorState :=
  if ed.has_selection then
    let se := get_selection_bounds ed
    { ed with lines := unindentRows se.1.row se.2.row 0 ed.lines, dirty := true }
  else
    let line := ed.lines.getD ed.cursor.row []
    if line.take 4 = indentU then
      { ed with lines := ed.lines.set ed.cursor.row (line.drop 4),
                cursor := ⟨ed.cursor.row,
                  if 4 ≤ ed.cursor.col then ed.cursor.col - 4 else 0⟩,
                dirty := true }
    else { ed with dirty := true }

/-- The `Cmd+V` case with clipboard content `clip`: delete an engaged
selection, insert the clipboard text, collapse the selection.  The dirty
flag is not touched. -/
def opPaste (ed : EditorState) (clip : List Char) : EditorState :=
  let ed := if ed.has_selection then delete_selection ed else ed
  let ed := insert_text ed clip
  { ed with sel_anchor := ed.cursor, sel_active := ed.cursor, selecting := false }

/-- The state change of the `Cmd+A` case: select the whole buffer, cursor at
its end. -/
def opSelectAll (ed : EditorState) : EditorState :=
  let active : Cursor :=
    ⟨ed.lines.length - 1, (ed.lines.getD (ed.lines.length - 1) []).length⟩
  { ed with sel_anchor := ⟨0, 0⟩, sel_active := active, cursor := active,
            selecting := true }

/-- The full `Cmd+A` case: the state change plus the text pushed to
`SDL_SetClipboardText` (computed from the already-updated state, as in the
source). -/
def selectAllClip (ed : EditorState) : EditorState × List Char :=
  let ed := opSelectAll ed
  (ed, get_selected_text ed)

/-- The search-mode jump: the current match list is always freshly computed
from this editor's lines by `update_search_matches` before any jump, so the
operation carries the query and index. -/
def opSearchJump (ed : EditorState) (q : List Char) (idx : Nat) : EditorState :=
  jump_to_search_match ed (update_search_matches ed.lines q) idx

/-- One keyboard-level edit operation of the dispatch loop in `main`. -/
inductive EditOp where
  | textInput (s : List Char)
  | backspace
  | deleteKey
  | ctrlD
  | returnKey
  | arrowLeft (shift : Bool)
  | arrowRight (shift : Bool)
  | arrowUp (shift : Bool)
  | arrowDown (shift : Bool)
  | wordForward
  | wordBackward
  | tab
  | shiftTab
  | paste (clip : List Char)
  | selectAll
  | searchJump (q : List Char) (idx : Nat)

/-- Dispatch one operation, applying the keydown handler's trailing
`clamp_cursor(ed)` to exactly the branches that reach it in the source
(text input is a separate event type, and the search-mode branch
`continue`s before the clamp). -/
def applyOp (ed : EditorState) (op : EditOp) : EditorState :=
  match op with
  | .textInput s => opTextInput ed s
  | .backspace => clamp_cursor (opBackspace ed)
  | .deleteKey => clamp_cursor (opDeleteKey ed)
  | .ctrlD => clamp_cursor (opCtrlD ed)
  | .returnKey => clamp_cursor (opReturn ed)
  | .arrowLeft sh => clamp_cursor (applyMove ed (arrowLeftPos ed) sh)
  | .arrowRight sh => clamp_cursor (applyMove ed (arrowRightPos ed) sh)
  | .arrowUp sh => clamp_cursor (applyMove ed (arrowUpPos ed) sh)
  | .arrowDown sh => clamp_cursor (applyMove ed (arrowDownPos ed) sh)
  | .wordForward => clamp_cursor (opWordFwd ed)
  | .wordBackward => clamp_cursor (opWordBack ed)
  | .tab => clamp_cursor (opTab ed)
  | .shiftTab => clamp_cursor (opShiftTab ed)
  | .paste clip => clamp_cursor (opPaste ed clip)
  | .selectAll => clamp_cursor (opSelectAll ed)
  | .searchJump q idx => opSearchJump ed q idx

/-- A cursor position valid for a buffer: the row indexes a line and the
column is at most that line's length (the end-of-line position included). -/
def CursorInBounds (lines : List (List Char)) (c : Cursor) : Prop :=
  c.row < lines.length ∧ c.col ≤ (lines.getD c.row []).length

instance (lines : List (List Char)) (c : Cursor) : Decidable (CursorInBounds lines c) := by
  unfold CursorInBounds; infer_instance

/-- The editor-state invariant: non-empty buffer and in-bounds cursor,
anchor and active positions. -/
def Valid (ed : EditorState) : Prop :=
  ed.lines ≠ [] ∧ CursorInBounds ed.lines ed.cursor ∧
    CursorInBounds ed.lines ed.sel_anchor ∧ CursorInBounds ed.lines ed.sel_active

instance (ed : EditorState) : Decidable (Valid ed) := by
  unfold Valid; infer_instance

/-- The minimum of two positions under the row-major order (the spec's
`bounds()` start). -/
def minPos (a b : Cursor) : Cursor := if cursorLt a b then a else b

/-- Join buffer lines with a line-feed separator. -/
def joinNL : List (List Char) → List Char
  | [] => []
  | [l] => l
  | l :: ls => l ++ '\n' :: joinNL ls

/-- The final newline-separated segment of an insertion text. -/
def lastSeg (t : List Char) : List Char := (splitNL t).getLastD []

/-- A concrete one-line state `"ab"` with the cursor at (0,0), not dirty. -/
def edC2 : EditorState := ⟨[['a', 'b']], ⟨0, 0⟩, false, ⟨0, 0⟩, ⟨0, 0⟩, 0, [], false⟩

/-- A concrete one-line state `"abc"` with the cursor at (0,2), no selection. -/
def edC3 : EditorState := ⟨[['a', 'b', 'c']], ⟨0, 2⟩, false, ⟨0, 2⟩, ⟨0, 2⟩, 0, [], false⟩

/-- A concrete one-line state `"abc"` with columns 1..3 selected. -/
def edW10 : EditorState := ⟨[['a', 'b', 'c']], ⟨0, 3⟩, true, ⟨0, 1⟩, ⟨0, 3⟩, 0, [], false⟩

/-- A concrete three-line state with a selection from (0,1) to (2,1). -/
def edW5 : EditorState :=
  ⟨[['a', 'b', 'c'], ['d', 'e'], ['f', 'g', 'h']], ⟨2, 1⟩, true, ⟨0, 1⟩, ⟨2, 1⟩, 0, [], false⟩

/-- A concrete two-line state, both lines indented, selected from (0,0) to
(1,4) with the cursor on the active end. -/
def edC4 : EditorState :=
  ⟨[[' ', ' ', ' ', ' ', 'a', 'b'], [' ', ' ', ' ', ' ', 'c', 'd']],
    ⟨1, 4⟩, true, ⟨0, 0⟩, ⟨1, 4⟩, 0, [], false⟩

/-- The spec's search example buffer: lines `"abab"` and `"xab"`. -/
def exLines : List (List Char) := [['a', 'b', 'a', 'b'], ['x', 'a', 'b']]

/-- The spec's search example query `"ab"`. -/
def exQuery : List Char := ['a', 'b']

/-! ### List toolkit -/

theorem getD_set_self {α : Type} (l : List α) (n : Nat) (a d : α) (h : n < l.length) :
    (l.set n a).getD n d = a := by
  rw [List.getD_eq_getElem _ d (by simpa using h)]
  simp [List.getElem_set]

theorem getD_set_ne {α : Type} (l : List α) (n m : Nat) (a d : α) (h : m ≠ n) :
    (l.set n a).getD m d = l.getD m d := by
  by_cases hm : m < l.length
  · rw [List.getD_eq_getElem _ d (by simpa using hm), List.getD_eq_getElem _ d hm]
    simp only [List.getElem_set]
    rw [if_neg (fun he : n = m => h he.symm)]
  · rw [List.getD_eq_default _ d (by simpa using Nat.le_of_not_lt hm),
        List.getD_eq_default _ d (Nat.le_of_not_lt hm)]

theorem getD_take_lt {α : Type} (l : List α) (n m : Nat) (d : α) (h : n < m) :
    (l.take m).getD n d = l.getD n d := by
  by_cases hm : n < l.length
  · rw [List.getD_eq_getElem _ d (by simp only [List.length_take]; omega),
        List.getD_eq_getElem _ d hm]
    simp [List.getElem_take]
  · rw [List.getD_eq_default _ d (by simp only [List.length_take]; omega),
        List.getD_eq_default _ d (Nat.le_of_not_lt hm)]

theorem drop_set_of_lt {α : Type} (l : List α) (n m : Nat) (a : α) (h : n < m) :
    (l.set n a).drop m = l.drop m := by
  induction l generalizing n m with
  | nil => simp
  | cons x xs ih =>
    cases n with
    | zero =>
      cases m with
      | zero => omega
      | succ m' => simp
    | succ n' =>
      cases m with
      | zero => omega
      | succ m' =>
        simp only [List.set_cons_succ, List.drop_succ_cons]
        exact ih n' m' (by omega)

theorem take_set_succ {α : Type} (l : List α) (n : Nat) (a : α) (h : n < l.length) :
    (l.set n a).take (n + 1) = l.take n ++ [a] := by
  induction l generalizing n with
  | nil => simp at h
  | cons x xs ih =>
    cases n with
    | zero => simp
    | succ n' =>
      simp only [List.set_cons_succ, List.take_succ_cons, List.cons_append]
      rw [ih n' (by simpa using h)]

theorem set_getD_self {α : Type} (l : List α) (n : Nat) (d : α) (h : n < l.length) :
    l.set n (l.getD n d) = l := by
  induction l generalizing n with
  | nil => simp at h
  | cons x xs ih =>
    cases n with
    | zero => simp [List.getD]
    | succ n' =>
      simp only [List.getD_cons_succ, List.set_cons_succ]
      rw [ih n' (by simpa using h)]

theorem getD_mem {α : Type} (l : List α) (n : Nat) (d : α) (h : n < l.length) :
    l.getD n d ∈ l := by
  induction l generalizing n with
  | nil => simp at h
  | cons x xs ih =>
    cases n with
    | zero => simp [List.getD]
    | succ n' =>
      simp only [List.getD_cons_succ]
      exact List.mem_cons_of_mem _ (ih n' (by simpa using h))

theorem take_ne_nil_of {α : Type} (l : List α) (k : Nat) (h : l ≠ []) (hk : 0 < k) :
    l.take k ≠ [] := by
  cases l with
  | nil => exact absurd rfl h
  | cons x xs => cases k with
    | zero => omega
    | succ k' => simp

theorem drop_eq_getD_cons {α : Type} (l : List α) (n : Nat) (d : α) (h : n < l.length) :
    l.drop n = l.getD n d :: l.drop (n + 1) := by
  induction l generalizing n with
  | nil => simp at h
  | cons x xs ih =>
    cases n with
    | zero => simp [List.getD]
    | succ n' =>
      simp only [List.getD_cons_succ, List.drop_succ_cons]
      exact ih n' (by simpa using h)

/-! ### Clamp lemmas -/

theorem clampPos_inBounds (lines : List (List Char)) (c : Cursor) (h : lines ≠ []) :
    CursorInBounds lines (clampPos lines c) := by
  have hl : 0 < lines.length := List.length_pos.mpr h
  unfold clampPos CursorInBounds
  simp only
  constructor
  · split <;> omega
  · split <;> split <;> omega

theorem clampPos_id (lines : List (List Char)) (c : Cursor) (h : CursorInBounds lines c) :
    clampPos lines c = c := by
  obtain ⟨h1, h2⟩ := h
  cases c with
  | mk r co =>
    unfold clampPos
    simp only
    rw [if_neg (by simp only at h1 ⊢; omega)]
    rw [if_neg (by simp only at h2 ⊢; omega)]

theorem clamp_cursor_inBounds (ed : EditorState) (h : ed.lines ≠ []) :
    CursorInBounds (clamp_cursor ed).lines (clamp_cursor ed).cursor :=
  clampPos_inBounds ed.lines ed.cursor h

/-! ### splitNL and insertSegs lemmas -/

theorem splitNL_ne_nil (s : List Char) : splitNL s ≠ [] := by
  cases s with
  | nil => simp [splitNL]
  | cons c cs =>
    rw [splitNL]
    split
    · simp
    · split <;> simp

theorem splitNL_length (s : List Char) : (splitNL s).length = s.count '\n' + 1 := by
  induction s with
  | nil => simp [splitNL]
  | cons c cs ih =>
    rw [splitNL]
    by_cases hc : c = '\n'
    · rw [if_pos hc]
      simp [List.count_cons, hc, ih]
    · rw [if_neg hc]
      have hne := splitNL_ne_nil cs
      cases hsp : splitNL cs with
      | nil => exact absurd hsp hne
      | cons p ps =>
        have : cs.count '\n' + 1 = (p :: ps).length := by rw [← hsp, ih]
        simp only [List.length_cons] at this ⊢
        simp [List.count_cons, hc]
        omega

theorem splitNL_no_newline (s : List Char) (h : s.count '\n' = 0) : splitNL s = [s] := by
  induction s with
  | nil => simp [splitNL]
  | cons c cs ih =>
    have hc : ¬ c = '\n' := by
      intro hc
      simp [List.count_cons, hc] at h
    have hcs : cs.count '\n' = 0 := by
      simp [List.count_cons, hc] at h
      omega
    rw [splitNL, if_neg hc, ih hcs]

theorem length_insertAt {α : Type} (l : List α) (k : Nat) (x : α) :
    (l.take k ++ [x] ++ l.drop k).length = l.length + 1 := by
  simp only [List.length_append, List.length_take, List.length_drop,
    List.length_singleton]
  omega

theorem insertSegs_lines_length (segs : List (List Char)) :
    ∀ ed : EditorState,
      (insertSegs ed segs).lines.length = ed.lines.length + (segs.length - 1) := by
  induction segs with
  | nil => intro ed; simp [insertSegs]
  | cons t rest ih =>
    intro ed
    cases rest with
    | nil => simp [insertSegs]
    | cons r rs =>
      rw [insertSegs]
      · rw [ih]
        simp only [List.length_cons, length_insertAt, List.length_set]
        omega
      · simp

theorem insertSegs_row (segs : List (List Char)) :
    ∀ ed : EditorState,
      (insertSegs ed segs).cursor.row = ed.cursor.row + (segs.length - 1) := by
  induction segs with
  | nil => intro ed; simp [insertSegs]
  | cons t rest ih =>
    intro ed
    cases rest with
    | nil => simp [insertSegs]
    | cons r rs =>
      rw [insertSegs]
      · rw [ih]
        simp only [List.length_cons]
        omega
      · simp

theorem insertSegs_col (segs : List (List Char)) :
    ∀ ed : EditorState, segs ≠ [] →
      (insertSegs ed segs).cursor.col =
        if segs.length = 1 then ed.cursor.col + (segs.getLastD []).length
        else (segs.getLastD []).length := by
  induction segs with
  | nil => intro ed h; exact absurd rfl h
  | cons t rest ih =>
    intro ed _
    cases rest with
    | nil => simp [insertSegs]
    | cons r rs =>
      rw [insertSegs]
      · rw [ih _ (by simp)]
        cases rs with
        | nil => simp [List.getLastD_cons]
        | cons a as => simp [List.getLastD_cons]
      · simp

theorem insertSegs_dirty (segs : List (List Char)) :
    ∀ ed : EditorState, (insertSegs ed segs).dirty = ed.dirty := by
  induction segs with
  | nil => intro ed; simp [insertSegs]
  | cons t rest ih =>
    intro ed
    cases rest with
    | nil => simp [insertSegs]
    | cons r rs =>
      rw [insertSegs]
      · rw [ih]
      · simp

theorem delete_selection_dirty (ed : EditorState) :
    (delete_selection ed).dirty = ed.dirty := by
  rw [delete_selection]
  split <;> rfl

theorem bounds_fst (ed : EditorState) :
    (get_selection_bounds ed).1 = minPos ed.sel_anchor ed.sel_active := by
  unfold get_selection_bounds minPos
  split <;> rfl

/-! ### Claim C6: insert_text newline and cursor accounting -/

/-- C6: for every cursor position and every text with `k` newline separators,
`insert_text` grows the buffer by exactly `k` lines and leaves the cursor at
the end of the inserted text: the row advances by `k` and the column equals
the length of the final inserted segment (the original column plus the
segment length when `k = 0`). -/
theorem insert_text_spec (ed : EditorState) (text : List Char) :
    (insert_text ed text).lines.length = ed.lines.length + text.count '\n' ∧
    (insert_text ed text).cursor.row = ed.cursor.row + text.count '\n' ∧
    (insert_text ed text).cursor.col =
      (if text.count '\n' = 0 then ed.cursor.col + text.length
       else (lastSeg text).length) := by
  refine ⟨?_, ?_, ?_⟩
  · rw [insert_text, insertSegs_lines_length, splitNL_length]
    omega
  · rw [insert_text, insertSegs_row, splitNL_length]
    omega
  · rw [insert_text, insertSegs_col _ _ (splitNL_ne_nil text)]
    by_cases h : text.count '\n' = 0
    · rw [if_pos (by rw [splitNL_length, h]), if_pos h]
      simp [splitNL_no_newline _ h, List.getLastD_cons]
    · rw [if_neg (by rw [splitNL_length]; omega), if_neg h]
      rfl

/-! ### Claim C10: delete_selection cursor placement and no-op case -/

/-- C10: with an effective selection, `delete_selection` puts the cursor at
the minimum of anchor and active under the position order and collapses the
selection onto it; without an effective selection the whole state is
unchanged. -/
theorem delete_selection_cursor (ed : EditorState) :
    (ed.has_selection →
      (delete_selection ed).cursor = minPos ed.sel_anchor ed.sel_active ∧
      (delete_selection ed).selecting = false ∧
      (delete_selection ed).sel_anchor = minPos ed.sel_anchor ed.sel_active ∧
      (delete_selection ed).sel_active = minPos ed.sel_anchor ed.sel_active) ∧
    (¬ ed.has_selection → delete_selection ed = ed) := by
  constructor
  · intro h
    rw [delete_selection, if_neg (not_not_intro h)]
    exact ⟨bounds_fst ed, rfl, bounds_fst ed, bounds_fst ed⟩
  · intro h
    rw [delete_selection, if_pos h]

/-- Witness for C10 at a concrete selected state. -/
theorem delete_selection_cursor_witness :
    (delete_selection edW10).cursor = minPos edW10.sel_anchor edW10.sel_active ∧
    (delete_selection edW10).selecting = false ∧
    (delete_selection edW10).sel_anchor = minPos edW10.sel_anchor edW10.sel_active ∧
    (delete_selection edW10).sel_active = minPos edW10.sel_anchor edW10.sel_active :=
  (delete_selection_cursor edW10).1 (by decide)

/-! ### Claim C2: dirty-flag discipline (corrected) -/

/-- C2 counterexample: from the clean state `edC2`, Ctrl+D deletes a
character and Cmd+V pastes text — both change the buffer — yet the dirty
flag stays `false`, contradicting the claim that every content-changing
operation sets it. -/
theorem dirty_flag_counterexample :
    (applyOp edC2 EditOp.ctrlD).lines = [['b']] ∧
    (applyOp edC2 EditOp.ctrlD).lines ≠ edC2.lines ∧
    (applyOp edC2 EditOp.ctrlD).dirty = false ∧
    (applyOp edC2 (EditOp.paste ['z'])).lines = [['z', 'a', 'b']] ∧
    (applyOp edC2 (EditOp.paste ['z'])).lines ≠ edC2.lines ∧
    (applyOp edC2 (EditOp.paste ['z'])).dirty = false := by
  decide

/-- C2 amended: text input, backspace, forward delete via the Delete key,
newline, indent and unindent all set the dirty flag, but the Ctrl+D forward
delete and the Cmd+V paste leave it unchanged even when they modify the
buffer. -/
theorem dirty_flag_amended (ed : EditorState) (s clip : List Char) :
    (applyOp ed (EditOp.textInput s)).dirty = true ∧
    (applyOp ed EditOp.backspace).dirty = true ∧
    (applyOp ed EditOp.deleteKey).dirty = true ∧
    (applyOp ed EditOp.returnKey).dirty = true ∧
    (applyOp ed EditOp.tab).dirty = true ∧
    (applyOp ed EditOp.shiftTab).dirty = true ∧
    (applyOp ed EditOp.ctrlD).dirty = ed.dirty ∧
    (applyOp ed (EditOp.paste clip)).dirty = ed.dirty := by
  refine ⟨rfl, rfl, rfl, rfl, ?_, ?_, ?_, ?_⟩
  · show (opTab ed).dirty = true
    unfold opTab
    split <;> rfl
  · show (opShiftTab ed).dirty = true
    unfold opShiftTab
    simp [apply_ite EditorState.dirty]
  · show (opCtrlD ed).dirty = ed.dirty
    unfold opCtrlD
    split
    · rfl
    · split <;> rfl
  · show (opPaste ed clip).dirty = ed.dirty
    unfold opPaste insert_text
    rw [insertSegs_dirty]
    split
    · rw [delete_selection_dirty]
    · rfl

/-! ### Claim C3: Tab indent without selection (corrected) -/

/-- C3 counterexample: from `edC3` (line `"abc"`, cursor column 2 < 4) the
Tab indent inserts the four spaces at the cursor column, not at column 0,
and the cursor moves to column 6 instead of holding at 2. -/
theorem indent_counterexample :
    (applyOp edC3 EditOp.tab).lines = [['a', 'b', ' ', ' ', ' ', ' ', 'c']] ∧
    (applyOp edC3 EditOp.tab).lines ≠ [[' ', ' ', ' ', ' ', 'a', 'b', 'c']] ∧
    (applyOp edC3 EditOp.tab).cursor.col = 6 ∧
    (applyOp edC3 EditOp.tab).cursor.col ≠ 2 := by
  decide

/-- C3 amended: without a selection, Tab inserts the four-space indent unit
at the cursor column of the current line and the cursor column always grows
by exactly 4 (the row is unchanged). -/
theorem indent_no_selection_amended (ed : EditorState) (hv : Valid ed)
    (hs : ¬ ed.has_selection) :
    (applyOp ed EditOp.tab).lines =
      ed.lines.set ed.cursor.row
        ((ed.lines.getD ed.cursor.row []).take ed.cursor.col ++ indentU ++
          (ed.lines.getD ed.cursor.row []).drop ed.cursor.col) ∧
    (applyOp ed EditOp.tab).cursor.row = ed.cursor.row ∧
    (applyOp ed EditOp.tab).cursor.col = ed.cursor.col + 4 := by
  obtain ⟨hne, ⟨hrow, hcol⟩, _, _⟩ := hv
  set l := ed.lines.getD ed.cursor.row [] with hl
  set lines2 :=
    ed.lines.set ed.cursor.row
      (l.take ed.cursor.col ++ indentU ++ l.drop ed.cursor.col) with hl2
  have htab : opTab ed =
      { ed with lines := lines2,
                cursor := ⟨ed.cursor.row, ed.cursor.col + 4⟩, dirty := true } := by
    unfold opTab
    rw [if_neg hs]
  have hb : CursorInBounds lines2 ⟨ed.cursor.row, ed.cursor.col + 4⟩ := by
    constructor
    · show ed.cursor.row < lines2.length
      rw [hl2, List.length_set]
      exact hrow
    · show ed.cursor.col + 4 ≤ (lines2.getD ed.cursor.row []).length
      rw [hl2, getD_set_self _ _ _ _ hrow]
      simp only [List.length_append, List.length_take, List.length_drop, indentU,
        List.length_cons, List.length_nil]
      omega
  refine ⟨?_, ?_, ?_⟩
  · show (clamp_cursor (opTab ed)).lines = lines2
    rw [htab]
    rfl
  · show (clamp_cursor (opTab ed)).cursor.row = ed.cursor.row
    rw [htab]
    show (clampPos lines2 ⟨ed.cursor.row, ed.cursor.col + 4⟩).row = ed.cursor.row
    rw [clampPos_id _ _ hb]
  · show (clamp_cursor (opTab ed)).cursor.col = ed.cursor.col + 4
    rw [htab]
    show (clampPos lines2 ⟨ed.cursor.row, ed.cursor.col + 4⟩).col = ed.cursor.col + 4
    rw [clampPos_id _ _ hb]

/-- Witness for the amended C3 at the concrete state `edC3`. -/
theorem indent_no_selection_amended_witness :
    (applyOp edC3 EditOp.tab).lines =
      edC3.lines.set edC3.cursor.row
        ((edC3.lines.getD edC3.cursor.row []).take edC3.cursor.col ++ indentU ++
          (edC3.lines.getD edC3.cursor.row []).drop edC3.cursor.col) ∧
    (applyOp edC3 EditOp.tab).cursor.row = edC3.cursor.row ∧
    (applyOp edC3 EditOp.tab).cursor.col = edC3.cursor.col + 4 :=
  indent_no_selection_amended edC3 (by decide) (by decide)

/-! ### Selection-bounds lemmas -/

theorem bounds_cases (ed : EditorState) :
    ((get_selection_bounds ed).1 = ed.sel_anchor ∧
      (get_selection_bounds ed).2 = ed.sel_active) ∨
    ((get_selection_bounds ed).1 = ed.sel_active ∧
      (get_selection_bounds ed).2 = ed.sel_anchor) := by
  unfold get_selection_bounds
  split
  · exact Or.inl ⟨rfl, rfl⟩
  · exact Or.inr ⟨rfl, rfl⟩

theorem bounds_sorted (ed : EditorState) :
    (get_selection_bounds ed).1.row < (get_selection_bounds ed).2.row ∨
    ((get_selection_bounds ed).1.row = (get_selection_bounds ed).2.row ∧
      (get_selection_bounds ed).1.col ≤ (get_selection_bounds ed).2.col) := by
  unfold get_selection_bounds
  split
  · rename_i hlt
    unfold cursorLt at hlt
    rcases hlt with h | ⟨h1, h2⟩
    · exact Or.inl h
    · exact Or.inr ⟨h1, Nat.le_of_lt h2⟩
  · rename_i hlt
    unfold cursorLt at hlt
    push_neg at hlt
    obtain ⟨h1, h2⟩ := hlt
    rcases Nat.lt_or_ge ed.sel_active.row ed.sel_anchor.row with h | h
    · exact Or.inl h
    · have heq : ed.sel_anchor.row = ed.sel_active.row := by omega
      exact Or.inr ⟨heq.symm, h2 heq⟩

theorem bounds_inBounds (ed : EditorState) (hv : Valid ed) :
    CursorInBounds ed.lines (get_selection_bounds ed).1 ∧
    CursorInBounds ed.lines (get_selection_bounds ed).2 := by
  obtain ⟨_, _, ha, hb⟩ := hv
  rcases bounds_cases ed with ⟨h1, h2⟩ | ⟨h1, h2⟩ <;> rw [h1, h2] <;>
    exact ⟨by assumption, by assumption⟩

theorem has_selection_of_row_lt (ed : EditorState) (hsel : ed.selecting = true)
    (hlt : (get_selection_bounds ed).1.row < (get_selection_bounds ed).2.row) :
    ed.has_selection := by
  refine ⟨hsel, ?_⟩
  intro he
  have hee : (get_selection_bounds ed).1 = (get_selection_bounds ed).2 := by
    unfold get_selection_bounds
    rw [he]
    split <;> rfl
  rw [hee] at hlt
  omega

theorem delete_selection_fields (ed : EditorState) (h : ed.has_selection) :
    (delete_selection ed).cursor = (get_selection_bounds ed).1 ∧
    (delete_selection ed).sel_anchor = (get_selection_bounds ed).1 ∧
    (delete_selection ed).sel_active = (get_selection_bounds ed).1 ∧
    (delete_selection ed).selecting = false := by
  rw [delete_selection, if_neg (not_not_intro h)]
  exact ⟨rfl, rfl, rfl, rfl⟩

theorem delete_selection_lines_same (ed : EditorState) (h : ed.has_selection)
    (heq : (get_selection_bounds ed).1.row = (get_selection_bounds ed).2.row) :
    (delete_selection ed).lines =
      ed.lines.set (get_selection_bounds ed).1.row
        (strErase (ed.lines.getD (get_selection_bounds ed).1.row [])
          (get_selection_bounds ed).1.col
          ((get_selection_bounds ed).2.col - (get_selection_bounds ed).1.col)) := by
  rw [delete_selection, if_neg (not_not_intro h)]
  show (if (get_selection_bounds ed).1.row = (get_selection_bounds ed).2.row
    then _ else _) = _
  rw [if_pos heq]

theorem delete_selection_lines_multirow (ed : EditorState) (h : ed.has_selection)
    (hlt : (get_selection_bounds ed).1.row < (get_selection_bounds ed).2.row)
    (hr1 : (get_selection_bounds ed).1.row < ed.lines.length) :
    (delete_selection ed).lines =
      ed.lines.take (get_selection_bounds ed).1.row ++
        [(ed.lines.getD (get_selection_bounds ed).1.row []).take
            (get_selection_bounds ed).1.col ++
          (ed.lines.getD (get_selection_bounds ed).2.row []).drop
            (get_selection_bounds ed).2.col] ++
        ed.lines.drop ((get_selection_bounds ed).2.row + 1) := by
  rw [delete_selection, if_neg (not_not_intro h)]
  show (if (get_selection_bounds ed).1.row = (get_selection_bounds ed).2.row
    then _ else _) = _
  rw [if_neg (by omega)]
  rw [take_set_succ _ _ _ hr1, drop_set_of_lt _ _ _ _ (by omega)]

/-! ### Claim C5: multi-row selection deletion -/

/-- C5: deleting a selection whose bounds span distinct rows `r1 < r2` keeps
the head of row `r1` up to the start column, appends the tail of row `r2`
from the end column, removes the rows strictly between as well as row `r2`,
and shrinks the buffer by exactly `r2 - r1` lines. -/
theorem delete_selection_multirow (ed : EditorState) (hv : Valid ed)
    (hsel : ed.selecting = true)
    (hlt : (get_selection_bounds ed).1.row < (get_selection_bounds ed).2.row) :
    (delete_selection ed).lines =
      ed.lines.take (get_selection_bounds ed).1.row ++
        [(ed.lines.getD (get_selection_bounds ed).1.row []).take
            (get_selection_bounds ed).1.col ++
          (ed.lines.getD (get_selection_bounds ed).2.row []).drop
            (get_selection_bounds ed).2.col] ++
        ed.lines.drop ((get_selection_bounds ed).2.row + 1) ∧
    (delete_selection ed).lines.length =
      ed.lines.length -
        ((get_selection_bounds ed).2.row - (get_selection_bounds ed).1.row) := by
  have h : ed.has_selection := has_selection_of_row_lt ed hsel hlt
  have hb := bounds_inBounds ed hv
  have hr1 : (get_selection_bounds ed).1.row < ed.lines.length := hb.1.1
  have hr2 : (get_selection_bounds ed).2.row < ed.lines.length := hb.2.1
  have hlines := delete_selection_lines_multirow ed h hlt hr1
  refine ⟨hlines, ?_⟩
  rw [hlines]
  simp only [List.length_append, List.length_take, List.length_drop,
    List.length_cons, List.length_nil]
  omega

/-- Witness for C5 at the concrete state `edW5` (selection (0,1)–(2,1) over
three lines). -/
theorem delete_selection_multirow_witness :
    (delete_selection edW5).lines =
      edW5.lines.take (get_selection_bounds edW5).1.row ++
        [(edW5.lines.getD (get_selection_bounds edW5).1.row []).take
            (get_selection_bounds edW5).1.col ++
          (edW5.lines.getD (get_selection_bounds edW5).2.row []).drop
            (get_selection_bounds edW5).2.col] ++
        edW5.lines.drop ((get_selection_bounds edW5).2.row + 1) ∧
    (delete_selection edW5).lines.length =
      edW5.lines.length -
        ((get_selection_bounds edW5).2.row - (get_selection_bounds edW5).1.row) :=
  delete_selection_multirow edW5 (by decide) (by decide) (by decide)

/-! ### delete_selection preserves the state invariant -/

theorem delete_selection_valid (ed : EditorState) (hv : Valid ed) :
    Valid (delete_selection ed) := by
  by_cases h : ed.has_selection
  · have hb := bounds_inBounds ed hv
    have hr1 : (get_selection_bounds ed).1.row < ed.lines.length := hb.1.1
    have hc1 : (get_selection_bounds ed).1.col ≤
        (ed.lines.getD (get_selection_bounds ed).1.row []).length := hb.1.2
    have hf := delete_selection_fields ed h
    have hcb : CursorInBounds (delete_selection ed).lines (get_selection_bounds ed).1 ∧
        (delete_selection ed).lines ≠ [] := by
      by_cases heq : (get_selection_bounds ed).1.row = (get_selection_bounds ed).2.row
      · have hlines := delete_selection_lines_same ed h heq
        have hlen : (delete_selection ed).lines.length = ed.lines.length := by
          rw [hlines, List.length_set]
        refine ⟨⟨by rw [hlen]; exact hr1, ?_⟩, ?_⟩
        · rw [hlines, getD_set_self _ _ _ _ hr1]
          unfold strErase
          simp only [List.length_append, List.length_take, List.length_drop]
          omega
        · have : 0 < (delete_selection ed).lines.length := by rw [hlen]; omega
          exact List.length_pos.mp this
      · have hlt : (get_selection_bounds ed).1.row < (get_selection_bounds ed).2.row := by
          rcases bounds_sorted ed with hx | ⟨hx, _⟩
          · exact hx
          · exact absurd hx heq
        have hlines := delete_selection_lines_multirow ed h hlt hr1
        have htk : (ed.lines.take (get_selection_bounds ed).1.row).length =
            (get_selection_bounds ed).1.row := by
          rw [List.length_take]
          omega
        have hgd : (delete_selection ed).lines.getD (get_selection_bounds ed).1.row [] =
            (ed.lines.getD (get_selection_bounds ed).1.row []).take
              (get_selection_bounds ed).1.col ++
            (ed.lines.getD (get_selection_bounds ed).2.row []).drop
              (get_selection_bounds ed).2.col := by
          rw [hlines]
          rw [List.getD_append _ _ _ _ (by
            simp only [List.length_append, htk, List.length_cons, List.length_nil]
            omega)]
          rw [List.getD_append_right _ _ _ _ (by rw [htk])]
          rw [htk]
          simp [List.getD]
        have hlen : 0 < (delete_selection ed).lines.length := by
          rw [hlines]
          simp only [List.length_append, List.length_cons, List.length_nil]
          omega
        refine ⟨⟨?_, ?_⟩, List.length_pos.mp hlen⟩
        · rw [hlines]
          simp only [List.length_append, htk, List.length_cons, List.length_nil]
          omega
        · rw [hgd]
          simp only [List.length_append, List.length_take]
          omega
    refine ⟨hcb.2, ?_, ?_, ?_⟩
    · rw [hf.1]; exact hcb.1
    · rw [hf.2.1]; exact hcb.1
    · rw [hf.2.2.1]; exact hcb.1
  · rw [delete_selection, if_pos h]
    exact hv

/-! ### unindentRows characterisation -/

theorem unindentRows_length (r1 r2 : Nat) :
    ∀ (r0 : Nat) (ls : List (List Char)),
      (unindentRows r1 r2 r0 ls).length = ls.length := by
  intro r0 ls
  induction ls generalizing r0 with
  | nil => rfl
  | cons l t ih => simp [unindentRows, ih]

theorem unindentRows_getD (r1 r2 : Nat) :
    ∀ (ls : List (List Char)) (r0 r : Nat), r < ls.length →
      (unindentRows r1 r2 r0 ls).getD r [] =
        (if r1 ≤ r0 + r ∧ r0 + r ≤ r2 ∧ (ls.getD r []).take 4 = indentU
         then (ls.getD r []).drop 4 else ls.getD r []) := by
  intro ls
  induction ls with
  | nil => intro r0 r hr; simp at hr
  | cons l t ih =>
    intro r0 r hr
    cases r with
    | zero => simp [unindentRows, List.getD]
    | succ r' =>
      simp only [unindentRows, List.getD_cons_succ]
      rw [ih (r0 + 1) r' (by simpa using hr)]
      have harr : r0 + 1 + r' = r0 + (r' + 1) := by omega
      rw [harr]

/-! ### Claim C4: Shift+Tab unindent (corrected) -/

/-- C4 counterexample: in `edC4` both selected lines are exactly-indented and
lose their four spaces, but the cursor column (4) is not reduced by the
removed amount — the selection branch never touches the cursor, which is only
clamped afterwards to the new line length 2, not to 4 - 4 = 0. -/
theorem unindent_counterexample :
    (applyOp edC4 EditOp.shiftTab).lines = [['a', 'b'], ['c', 'd']] ∧
    (applyOp edC4 EditOp.shiftTab).cursor.col = 2 ∧
    (applyOp edC4 EditOp.shiftTab).cursor.col ≠ edC4.cursor.col - 4 := by
  decide

/-- C4 amended: in both branches an affected line loses its first 4 units iff
those units are exactly 4 spaces; but the cursor column is reduced by the
removed amount (floored at 0) only in the no-selection branch — with an
engaged selection the cursor column is left unchanged except for the trailing
clamp to the new current line's length. -/
theorem unindent_amended (ed : EditorState) (hv : Valid ed) :
    (¬ ed.has_selection →
      (applyOp ed EditOp.shiftTab).lines =
        ed.lines.set ed.cursor.row
          (if (ed.lines.getD ed.cursor.row []).take 4 = indentU
           then (ed.lines.getD ed.cursor.row []).drop 4
           else ed.lines.getD ed.cursor.row []) ∧
      (applyOp ed EditOp.shiftTab).cursor.row = ed.cursor.row ∧
      (applyOp ed EditOp.shiftTab).cursor.col =
        (if (ed.lines.getD ed.cursor.row []).take 4 = indentU
         then (if 4 ≤ ed.cursor.col then ed.cursor.col - 4 else 0)
         else ed.cursor.col)) ∧
    (ed.has_selection →
      (∀ r, r < ed.lines.length →
        (applyOp ed EditOp.shiftTab).lines.getD r [] =
          (if (get_selection_bounds ed).1.row ≤ r ∧
              r ≤ (get_selection_bounds ed).2.row ∧
              (ed.lines.getD r []).take 4 = indentU
           then (ed.lines.getD r []).drop 4 else ed.lines.getD r [])) ∧
      (applyOp ed EditOp.shiftTab).cursor.row = ed.cursor.row ∧
      (applyOp ed EditOp.shiftTab).cursor.col =
        min ed.cursor.col
          ((applyOp ed EditOp.shiftTab).lines.getD ed.cursor.row []).length) := by
  obtain ⟨hne, ⟨hrow, hcol⟩, _, _⟩ := hv
  constructor
  · intro hs
    by_cases htake : (ed.lines.getD ed.cursor.row []).take 4 = indentU
    · have hst : opShiftTab ed =
          { ed with
            lines := ed.lines.set ed.cursor.row
              ((ed.lines.getD ed.cursor.row []).drop 4),
            cursor := ⟨ed.cursor.row,
              if 4 ≤ ed.cursor.col then ed.cursor.col - 4 else 0⟩,
            dirty := true } := by
        unfold opShiftTab
        rw [if_neg hs, if_pos htake]
      have hlen4 : 4 ≤ (ed.lines.getD ed.cursor.row []).length := by
        have hlt := congrArg List.length htake
        simp only [List.length_take, indentU, List.length_cons, List.length_nil] at hlt
        omega
      have hb : CursorInBounds
          (ed.lines.set ed.cursor.row ((ed.lines.getD ed.cursor.row []).drop 4))
          ⟨ed.cursor.row, if 4 ≤ ed.cursor.col then ed.cursor.col - 4 else 0⟩ := by
        constructor
        · show ed.cursor.row < (ed.lines.set _ _).length
          rw [List.length_set]
          exact hrow
        · show (if 4 ≤ ed.cursor.col then ed.cursor.col - 4 else 0) ≤
            ((ed.lines.set ed.cursor.row
              ((ed.lines.getD ed.cursor.row []).drop 4)).getD ed.cursor.row []).length
          rw [getD_set_self _ _ _ _ hrow, List.length_drop]
          split <;> omega
      refine ⟨?_, ?_, ?_⟩
      · show (clamp_cursor (opShiftTab ed)).lines = _
        rw [hst, if_pos htake]
        rfl
      · show (clamp_cursor (opShiftTab ed)).cursor.row = ed.cursor.row
        rw [hst]
        show (clampPos _ _).row = ed.cursor.row
        rw [clampPos_id _ _ hb]
      · show (clamp_cursor (opShiftTab ed)).cursor.col = _
        rw [hst]
        show (clampPos _ _).col = _
        rw [clampPos_id _ _ hb, if_pos htake]
    · have hst : opShiftTab ed = { ed with dirty := true } := by
        unfold opShiftTab
        rw [if_neg hs, if_neg htake]
      have hb : CursorInBounds ed.lines ed.cursor := ⟨hrow, hcol⟩
      refine ⟨?_, ?_, ?_⟩
      · show (clamp_cursor (opShiftTab ed)).lines = _
        rw [hst, if_neg htake, set_getD_self _ _ _ hrow]
        rfl
      · show (clamp_cursor (opShiftTab ed)).cursor.row = ed.cursor.row
        rw [hst]
        show (clampPos ed.lines ed.cursor).row = ed.cursor.row
        rw [clampPos_id _ _ hb]
      · show (clamp_cursor (opShiftTab ed)).cursor.col = _
        rw [hst, if_neg htake]
        show (clampPos ed.lines ed.cursor).col = ed.cursor.col
        rw [clampPos_id _ _ hb]
  · intro hs
    have hst : opShiftTab ed =
        { ed with
          lines := unindentRows (get_selection_bounds ed).1.row
            (get_selection_bounds ed).2.row 0 ed.lines,
          dirty := true } := by
      unfold opShiftTab
      rw [if_pos hs]
    have hlen : (unindentRows (get_selection_bounds ed).1.row
        (get_selection_bounds ed).2.row 0 ed.lines).length = ed.lines.length :=
      unindentRows_length _ _ 0 ed.lines
    have hlines : (applyOp ed EditOp.shiftTab).lines =
        unindentRows (get_selection_bounds ed).1.row
          (get_selection_bounds ed).2.row 0 ed.lines := by
      show (clamp_cursor (opShiftTab ed)).lines = _
      rw [hst]
      rfl
    refine ⟨?_, ?_, ?_⟩
    · intro r hr
      rw [hlines, unindentRows_getD _ _ _ _ _ hr]
      simp only [Nat.zero_add]
    · show (clamp_cursor (opShiftTab ed)).cursor.row = ed.cursor.row
      rw [hst]
      show (clampPos _ ed.cursor).row = ed.cursor.row
      unfold clampPos
      simp only
      rw [if_neg (by rw [hlen]; omega)]
    · rw [hlines]
      show (clamp_cursor (opShiftTab ed)).cursor.col = _
      rw [hst]
      show (clampPos (unindentRows (get_selection_bounds ed).1.row
        (get_selection_bounds ed).2.row 0 ed.lines) ed.cursor).col = _
      unfold clampPos
      simp only
      have hrowif : (if (unindentRows (get_selection_bounds ed).1.row
            (get_selection_bounds ed).2.row 0 ed.lines).length ≤ ed.cursor.row
          then (unindentRows (get_selection_bounds ed).1.row
            (get_selection_bounds ed).2.row 0 ed.lines).length - 1
          else ed.cursor.row) = ed.cursor.row := by
        rw [if_neg (by rw [hlen]; omega)]
      rw [hrowif]
      split <;> omega

/-- Witness for the amended C4 at the concrete state `edC4`. -/
theorem unindent_amended_witness :
    (∀ r, r < edC4.lines.length →
      (applyOp edC4 EditOp.shiftTab).lines.getD r [] =
        (if (get_selection_bounds edC4).1.row ≤ r ∧
            r ≤ (get_selection_bounds edC4).2.row ∧
            (edC4.lines.getD r []).take 4 = indentU
         then (edC4.lines.getD r []).drop 4 else edC4.lines.getD r [])) ∧
    (applyOp edC4 EditOp.shiftTab).cursor.row = edC4.cursor.row ∧
    (applyOp edC4 EditOp.shiftTab).cursor.col =
      min edC4.cursor.col
        ((applyOp edC4 EditOp.shiftTab).lines.getD edC4.cursor.row []).length :=
  (unindent_amended edC4 (by decide)).2 (by decide)

/-! ### Joining lemmas for the Cmd+A clipboard push -/

theorem joinNL_cons (a : List Char) (rest : List (List Char)) (h : rest ≠ []) :
    joinNL (a :: rest) = a ++ '\n' :: joinNL rest := by
  cases rest with
  | nil => exact absurd rfl h
  | cons b bs => rfl

theorem midJoin_append_last :
    ∀ (k : Nat) (ls : List (List Char)) (r : Nat), ls.length = r + k + 1 →
      midJoin ls r (ls.length - 1) ++ ls.getD (ls.length - 1) [] =
        joinNL (ls.drop r) := by
  intro k
  induction k with
  | zero =>
    intro ls r h
    have h1 : ls.length - 1 = r := by omega
    rw [h1, midJoin, if_neg (by omega), List.nil_append]
    have hnil : ls.drop (r + 1) = [] := List.drop_eq_nil_of_le (by omega)
    rw [drop_eq_getD_cons ls r [] (by omega), hnil]
    rfl
  | succ k ih =>
    intro ls r h
    rw [midJoin, if_pos (by omega)]
    have hrec := ih ls (r + 1) (by omega)
    have hdrop : ls.drop r = ls.getD r [] :: ls.drop (r + 1) :=
      drop_eq_getD_cons ls r [] (by omega)
    have hne : ls.drop (r + 1) ≠ [] := by
      intro hnil
      have hlen := List.length_drop (r + 1) ls
      rw [hnil] at hlen
      simp at hlen
      omega
    rw [hdrop, joinNL_cons _ _ hne, ← hrec]
    simp [List.append_assoc]

/-- The extracted text of a whole-buffer selection is the whole buffer joined
by line-feeds. -/
theorem full_extract (ls : List (List Char)) (st : EditorState)
    (hlines : st.lines = ls)
    (hanchor : st.sel_anchor = ⟨0, 0⟩)
    (hactive : st.sel_active = ⟨ls.length - 1, (ls.getD (ls.length - 1) []).length⟩)
    (hselecting : st.selecting = true)
    (hne : ls ≠ []) :
    get_selected_text st = joinNL ls := by
  cases ls with
  | nil => exact absurd rfl hne
  | cons a t =>
    cases t with
    | nil =>
      simp only [List.length_cons, List.length_nil, List.getD] at hactive
      by_cases ha : a = []
      · subst ha
        have hns : ¬ st.has_selection := by
          intro hx
          apply hx.2
          rw [hanchor, hactive]
          rfl
        rw [get_selected_text, if_pos hns]
        rfl
      · have hapos : 0 < a.length := List.length_pos.mpr ha
        have hlt : cursorLt st.sel_anchor st.sel_active := by
          rw [hanchor, hactive]
          right
          exact ⟨rfl, by simpa using hapos⟩
        have hhs : st.has_selection := by
          refine ⟨hselecting, ?_⟩
          rw [hanchor, hactive]
          intro hx
          injection hx with h1 h2
          simp at h2
          omega
        have hbounds : get_selection_bounds st =
            (⟨0, 0⟩, ⟨0, a.length⟩) := by
          unfold get_selection_bounds
          rw [if_pos hlt, hanchor, hactive]
          rfl
        rw [get_selected_text, if_neg (not_not_intro hhs), hbounds]
        simp [hlines, List.getD, joinNL]
    | cons b t2 =>
      have hlt : cursorLt st.sel_anchor st.sel_active := by
        rw [hanchor, hactive]
        left
        simp only [List.length_cons]
        omega
      have hhs : st.has_selection := by
        refine ⟨hselecting, ?_⟩
        rw [hanchor, hactive]
        intro hx
        injection hx with h1 h2
        simp only [List.length_cons] at h1
        omega
      have hbounds : get_selection_bounds st = (⟨0, 0⟩, st.sel_active) := by
        unfold get_selection_bounds
        rw [if_pos hlt, hanchor]
      rw [get_selected_text, if_neg (not_not_intro hhs), hbounds, hactive]
      rw [if_neg (by simp only [List.length_cons]; omega)]
      rw [hlines]
      show ((a :: b :: t2).getD 0 []).drop 0 ++ ['\n'] ++
          midJoin (a :: b :: t2) (0 + 1) ((a :: b :: t2).length - 1) ++
          ((a :: b :: t2).getD ((a :: b :: t2).length - 1) []).take
            (((a :: b :: t2).getD ((a :: b :: t2).length - 1) []).length) =
        joinNL (a :: b :: t2)
      rw [List.take_length]
      have hmid := midJoin_append_last t2.length (a :: b :: t2) 1
        (by simp only [List.length_cons]; omega)
      rw [List.append_assoc
        (((a :: b :: t2).getD 0 []).drop 0 ++ ['\n'])
        (midJoin (a :: b :: t2) (0 + 1) ((a :: b :: t2).length - 1))]
      show ((a :: b :: t2).getD 0 []).drop 0 ++ ['\n'] ++
          (midJoin (a :: b :: t2) 1 ((a :: b :: t2).length - 1) ++
            (a :: b :: t2).getD ((a :: b :: t2).length - 1) []) =
        joinNL (a :: b :: t2)
      rw [hmid]
      simp [List.getD, joinNL_cons, List.append_assoc]

/-! ### Claim C9: Cmd+A pushes the whole buffer to the clipboard -/

/-- C9: the Cmd+A handler, besides selecting the whole buffer (anchor (0,0),
active at the end of the last line, selection engaged, cursor on the active
end), always pushes the entire buffer joined by line-feeds to the clipboard,
even though no copy command was issued. -/
theorem select_all_clipboard (ed : EditorState) (h : ed.lines ≠ []) :
    (selectAllClip ed).2 = joinNL ed.lines ∧
    (selectAllClip ed).1.sel_anchor = ⟨0, 0⟩ ∧
    (selectAllClip ed).1.sel_active =
      ⟨ed.lines.length - 1, (ed.lines.getD (ed.lines.length - 1) []).length⟩ ∧
    (selectAllClip ed).1.selecting = true ∧
    (selectAllClip ed).1.cursor = (selectAllClip ed).1.sel_active := by
  refine ⟨?_, rfl, rfl, rfl, rfl⟩
  show get_selected_text (opSelectAll ed) = joinNL ed.lines
  exact full_extract ed.lines (opSelectAll ed) rfl rfl rfl rfl h

/-- Witness for C9 at the concrete three-line state `edW5`. -/
theorem select_all_clipboard_witness :
    (selectAllClip edW5).2 = joinNL edW5.lines ∧
    (selectAllClip edW5).1.sel_anchor = ⟨0, 0⟩ ∧
    (selectAllClip edW5).1.sel_active =
      ⟨edW5.lines.length - 1, (edW5.lines.getD (edW5.lines.length - 1) []).length⟩ ∧
    (selectAllClip edW5).1.selecting = true ∧
    (selectAllClip edW5).1.cursor = (selectAllClip edW5).1.sel_active :=
  select_all_clipboard edW5 (by decide)

/-! ### getline-loop vs split-on-newline lemmas -/

theorem splitNL_eq_splitFirst (s : List Char) :
    splitNL s =
      match splitFirstNL s with
      | none => [s]
      | some pr => pr.1 :: splitNL pr.2 := by
  induction s with
  | nil => rfl
  | cons c cs ih =>
    by_cases hc : c = '\n'
    · rw [splitNL, if_pos hc, splitFirstNL, if_pos hc]
    · rw [splitNL, if_neg hc, splitFirstNL, if_neg hc, ih]
      cases hsp : splitFirstNL cs with
      | none => rfl
      | some pr => rfl

theorem splitNL_singleton_empty (r : List Char) : splitNL r = [[]] ↔ r = [] := by
  constructor
  · intro h
    cases r with
    | nil => rfl
    | cons c cs =>
      by_cases hc : c = '\n'
      · rw [splitNL, if_pos hc] at h
        injection h with h1 h2
        exact absurd h2 (splitNL_ne_nil cs)
      · rw [splitNL, if_neg hc] at h
        cases hsp : splitNL cs with
        | nil => exact absurd hsp (splitNL_ne_nil cs)
        | cons p ps =>
          rw [hsp] at h
          injection h with h1 h2
          simp at h1
  · intro h
    subst h
    rfl

theorem getLines_ne_nil (s : List Char) (h : s ≠ []) : getLines s ≠ [] := by
  cases s with
  | nil => exact absurd rfl h
  | cons c cs =>
    rw [getLines]
    cases hsp : splitFirstNL (c :: cs) with
    | none => simp
    | some pr => simp

theorem getLines_nil : getLines [] = [] := by
  rw [getLines]

theorem getLines_none (c : Char) (cs : List Char)
    (h : splitFirstNL (c :: cs) = none) :
    getLines (c :: cs) = [stripCR (c :: cs)] := by
  rw [getLines]
  split
  · rfl
  · rename_i pr heq
    rw [h] at heq
    cases heq

theorem getLines_some (c : Char) (cs : List Char) (pr : List Char × List Char)
    (h : splitFirstNL (c :: cs) = some pr) :
    getLines (c :: cs) = stripCR pr.1 :: getLines pr.2 := by
  rw [getLines]
  split
  · rename_i heq
    rw [h] at heq
    cases heq
  · rename_i pr2 heq
    rw [h] at heq
    injection heq with heq2
    subst heq2
    rfl

theorem loadLines_eq (s : List Char) :
    (if getLines s = [] then [[]] else getLines s) = loadLinesSpec s := by
  suffices H : ∀ (n : Nat) (s : List Char), s.length = n →
      (if getLines s = [] then [[]] else getLines s) = loadLinesSpec s by
    exact H s.length s rfl
  intro n
  induction n using Nat.strong_induction_on with
  | _ n ih =>
    intro s hlen
    cases s with
    | nil =>
      rw [getLines_nil, if_pos rfl]
      unfold loadLinesSpec
      rw [show splitNL ([] : List Char) = [[]] from rfl]
      rw [if_neg (by intro hx; simp at hx)]
      simp [stripCR]
    | cons c cs =>
      cases hsp : splitFirstNL (c :: cs) with
      | none =>
        have hsplit : splitNL (c :: cs) = [c :: cs] := by
          rw [splitNL_eq_splitFirst, hsp]
        rw [getLines_none c cs hsp, if_neg (by simp)]
        unfold loadLinesSpec
        rw [hsplit]
        rw [if_neg (by simp)]
        simp
      | some pr =>
        have hsplit : splitNL (c :: cs) = pr.1 :: splitNL pr.2 := by
          rw [splitNL_eq_splitFirst, hsp]
        rw [getLines_some c cs pr hsp, if_neg (by simp)]
        unfold loadLinesSpec
        rw [hsplit]
        by_cases hr : pr.2 = []
        · rw [hr, getLines_nil]
          rw [show splitNL ([] : List Char) = [[]] from rfl]
          rw [if_pos ⟨by simp, by simp⟩]
          simp
        · have hih := ih pr.2.length
            (by have := splitFirstNL_some_length hsp; omega) pr.2 rfl
          rw [if_neg (getLines_ne_nil pr.2 hr)] at hih
          rw [hih]
          unfold loadLinesSpec
          cases hp2 : splitNL pr.2 with
          | nil => exact absurd hp2 (splitNL_ne_nil pr.2)
          | cons q qs =>
            rw [List.getLast?_cons_cons]
            by_cases hlast : (q :: qs).getLast? = some ([] : List Char)
            · have hqs : 1 < (q :: qs).length := by
                cases qs with
                | nil =>
                  simp only [List.getLast?_singleton, Option.some.injEq] at hlast
                  subst hlast
                  exact absurd ((splitNL_singleton_empty pr.2).mp hp2) hr
                | cons x xs => simp
              rw [if_pos ⟨hlast, hqs⟩]
              rw [if_pos ⟨hlast, show 1 < (pr.1 :: q :: qs).length by simp⟩]
              simp
            · rw [if_neg (fun hx => hlast hx.1)]
              rw [if_neg (fun hx => hlast hx.1)]
              simp

/-! ### Claim C8: load contract and atomicity on failure -/

/-- C8: an unreadable path leaves the whole state unchanged; a readable one
replaces the buffer by the content split on line-feed (one trailing line-feed
terminating the last line rather than adding an empty one, and the empty
content producing a single empty line) with a trailing carriage-return
stripped from each line, puts the cursor at (0,0), clears the dirty flag and
records the path. -/
theorem load_file_spec (ed : EditorState) (path : List Char) :
    load_file ed path none = ed ∧
    ∀ s : List Char,
      (load_file ed path (some s)).lines = loadLinesSpec s ∧
      (load_file ed path (some s)).cursor = ⟨0, 0⟩ ∧
      (load_file ed path (some s)).dirty = false ∧
      (load_file ed path (some s)).file_path = path := by
  refine ⟨rfl, ?_⟩
  intro s
  refine ⟨?_, rfl, rfl, rfl⟩
  show (if getLines s = [] then [[]] else getLines s) = loadLinesSpec s
  exact loadLines_eq s

/-! ### firstMatch: soundness, minimality, completeness -/

theorem firstMatch_nil (q : List Char) (hq : q ≠ []) : firstMatch q [] = none := by
  rw [firstMatch, if_neg hq]

theorem firstMatch_sound (q : List Char) :
    ∀ (l : List Char) (p : Nat), firstMatch q l = some p →
      q.isPrefixOf (l.drop p) = true ∧ p + q.length ≤ l.length := by
  intro l
  induction l with
  | nil =>
    intro p h
    rw [firstMatch] at h
    split at h
    · rename_i hq
      injection h with h1
      subst h1
      subst hq
      exact ⟨rfl, by simp⟩
    · cases h
  | cons c cs ih =>
    intro p h
    rw [firstMatch] at h
    by_cases hp : q.isPrefixOf (c :: cs) = true
    · rw [if_pos hp] at h
      injection h with h1
      subst h1
      refine ⟨by simpa using hp, ?_⟩
      have := List.IsPrefix.length_le (List.isPrefixOf_iff_prefix.mp hp)
      simpa using this
    · rw [if_neg hp, Option.map_eq_some'] at h
      obtain ⟨p', hp', rfl⟩ := h
      have hi := ih p' hp'
      refine ⟨by simpa using hi.1, ?_⟩
      have := hi.2
      simp only [List.length_cons]
      omega

theorem firstMatch_min (q : List Char) :
    ∀ (l : List Char) (p : Nat), firstMatch q l = some p →
      ∀ j, j < p → q.isPrefixOf (l.drop j) = false := by
  intro l
  induction l with
  | nil =>
    intro p h j hj
    rw [firstMatch] at h
    split at h
    · injection h with h1
      omega
    · cases h
  | cons c cs ih =>
    intro p h j hj
    rw [firstMatch] at h
    by_cases hp : q.isPrefixOf (c :: cs) = true
    · rw [if_pos hp] at h
      injection h with h1
      omega
    · rw [if_neg hp, Option.map_eq_some'] at h
      obtain ⟨p', hp', rfl⟩ := h
      cases j with
      | zero =>
        rw [List.drop_zero]
        exact Bool.eq_false_iff.mpr hp
      | succ j' =>
        have := ih p' hp' j' (by omega)
        simpa using this

theorem firstMatch_none (q : List Char) :
    ∀ (l : List Char), firstMatch q l = none →
      ∀ j, q.isPrefixOf (l.drop j) = false := by
  intro l
  induction l with
  | nil =>
    intro h j
    rw [firstMatch] at h
    split at h
    · cases h
    · rename_i hq
      cases q with
      | nil => exact absurd rfl hq
      | cons a as => simp [List.isPrefixOf]
  | cons c cs ih =>
    intro h j
    rw [firstMatch] at h
    by_cases hp : q.isPrefixOf (c :: cs) = true
    · rw [if_pos hp] at h
      cases h
    · rw [if_neg hp, Option.map_eq_none'] at h
      cases j with
      | zero =>
        rw [List.drop_zero]
        exact Bool.eq_false_iff.mpr hp
      | succ j' =>
        simpa using ih h j'

/-! ### scanLine: branch equations and properties -/

theorem scanLine_nil_q (l : List Char) (base : Nat) : scanLine [] l base = [] := by
  rw [scanLine, dif_pos rfl]

theorem scanLine_none (q l : List Char) (base : Nat) (h : firstMatch q l = none) :
    scanLine q l base = [] := by
  rw [scanLine]
  by_cases hq : q = []
  · rw [dif_pos hq]
  · rw [dif_neg hq]
    split
    · rfl
    · rename_i p heq
      rw [h] at heq
      cases heq

theorem scanLine_some (q l : List Char) (base p : Nat) (hq : q ≠ [])
    (h : firstMatch q l = some p) :
    scanLine q l base =
      (base + p) :: scanLine q (l.drop (p + q.length)) (base + p + q.length) := by
  rw [scanLine, dif_neg hq]
  split
  · rename_i heq
    rw [h] at heq
    cases heq
  · rename_i p2 heq
    rw [h] at heq
    injection heq with heq2
    subst heq2
    rfl

theorem scanLine_sound (q : List Char) (hq : q ≠ []) :
    ∀ (l : List Char) (base x : Nat), x ∈ scanLine q l base →
      base ≤ x ∧ x - base + q.length ≤ l.length ∧
        q.isPrefixOf (l.drop (x - base)) = true := by
  suffices H : ∀ (n : Nat) (l : List Char), l.length = n → ∀ (base x : Nat),
      x ∈ scanLine q l base → base ≤ x ∧ x - base + q.length ≤ l.length ∧
        q.isPrefixOf (l.drop (x - base)) = true by
    exact fun l base x h => H l.length l rfl base x h
  intro n
  induction n using Nat.strong_induction_on with
  | _ n ih =>
    intro l hlen base x hx
    cases hm : firstMatch q l with
    | none =>
      rw [scanLine_none _ _ _ hm] at hx
      simp at hx
    | some p =>
      rw [scanLine_some _ _ _ _ hq hm] at hx
      have hfm := firstMatch_sound q l p hm
      have hlq : 0 < q.length := List.length_pos.mpr hq
      rcases List.mem_cons.mp hx with rfl | hx2
      · refine ⟨by omega, ?_, ?_⟩
        · have := hfm.2
          omega
        · have harith : base + p - base = p := by omega
          rw [harith]
          exact hfm.1
      · have hrec := ih (l.drop (p + q.length)).length
          (by
            simp only [List.length_drop]
            have := hfm.2
            omega)
          (l.drop (p + q.length)) rfl (base + p + q.length) x hx2
        obtain ⟨h1, h2, h3⟩ := hrec
        rw [List.length_drop] at h2
        refine ⟨by omega, by omega, ?_⟩
        rw [List.drop_drop] at h3
        have harith : p + q.length + (x - (base + p + q.length)) = x - base := by omega
        rw [harith] at h3
        exact h3

theorem scanLine_chain (q : List Char) (hq : q ≠ []) :
    ∀ (l : List Char) (base : Nat),
      List.Chain' (fun a b => a + q.length ≤ b) (scanLine q l base) := by
  suffices H : ∀ (n : Nat) (l : List Char), l.length = n → ∀ (base : Nat),
      List.Chain' (fun a b => a + q.length ≤ b) (scanLine q l base) by
    exact fun l base => H l.length l rfl base
  intro n
  induction n using Nat.strong_induction_on with
  | _ n ih =>
    intro l hlen base
    cases hm : firstMatch q l with
    | none =>
      rw [scanLine_none _ _ _ hm]
      simp
    | some p =>
      rw [scanLine_some _ _ _ _ hq hm]
      have hfm := firstMatch_sound q l p hm
      have hlq : 0 < q.length := List.length_pos.mpr hq
      refine List.chain'_cons'.mpr ⟨?_, ?_⟩
      · intro y hy
        have hmem : y ∈ scanLine q (l.drop (p + q.length)) (base + p + q.length) :=
          List.mem_of_mem_head? hy
        have := (scanLine_sound q hq _ _ _ hmem).1
        omega
      · exact ih (l.drop (p + q.length)).length
          (by
            simp only [List.length_drop]
            have := hfm.2
            omega)
          (l.drop (p + q.length)) rfl (base + p + q.length)

theorem scanLine_complete (q : List Char) (hq : q ≠ []) :
    ∀ (l : List Char) (base j : Nat), base ≤ j →
      q.isPrefixOf (l.drop (j - base)) = true →
      ∃ x ∈ scanLine q l base, x ≤ j ∧ j < x + q.length := by
  suffices H : ∀ (n : Nat) (l : List Char), l.length = n → ∀ (base j : Nat),
      base ≤ j → q.isPrefixOf (l.drop (j - base)) = true →
      ∃ x ∈ scanLine q l base, x ≤ j ∧ j < x + q.length by
    exact fun l base j hb hp => H l.length l rfl base j hb hp
  intro n
  induction n using Nat.strong_induction_on with
  | _ n ih =>
    intro l hlen base j hbase hpre
    have hlq : 0 < q.length := List.length_pos.mpr hq
    cases hm : firstMatch q l with
    | none =>
      have := firstMatch_none q l hm (j - base)
      rw [this] at hpre
      cases hpre
    | some p =>
      rw [scanLine_some _ _ _ _ hq hm]
      have hfm := firstMatch_sound q l p hm
      have hmin := firstMatch_min q l p hm
      by_cases hj : j < base + p
      · have := hmin (j - base) (by omega)
        rw [this] at hpre
        cases hpre
      · by_cases hj2 : j < base + p + q.length
        · exact ⟨base + p, List.mem_cons_self _ _, by omega, by omega⟩
        · have hpre2 : q.isPrefixOf
              ((l.drop (p + q.length)).drop (j - (base + p + q.length))) = true := by
            rw [List.drop_drop]
            have harith : p + q.length + (j - (base + p + q.length)) = j - base := by
              omega
            rw [harith]
            exact hpre
          have hrec := ih (l.drop (p + q.length)).length
            (by
              simp only [List.length_drop]
              have := hfm.2
              omega)
            (l.drop (p + q.length)) rfl (base + p + q.length) j (by omega) hpre2
          obtain ⟨x, hx, hxa, hxb⟩ := hrec
          exact ⟨x, List.mem_cons_of_mem _ hx, hxa, hxb⟩

/-! ### searchRows: soundness, completeness, ordering -/

theorem searchRows_sound (q : List Char) :
    ∀ (ls : List (List Char)) (r0 : Nat) (m : Cursor), m ∈ searchRows q ls r0 →
      ∃ i, i < ls.length ∧ m.row = r0 + i ∧ m.col ∈ scanLine q (ls.getD i []) 0 := by
  intro ls
  induction ls with
  | nil =>
    intro r0 m h
    simp [searchRows] at h
  | cons l t ih =>
    intro r0 m h
    rcases List.mem_append.mp h with h1 | h2
    · obtain ⟨c, hc, rfl⟩ := List.mem_map.mp h1
      exact ⟨0, by simp, by simp, by simpa [List.getD] using hc⟩
    · obtain ⟨i, hi, hrow, hcol⟩ := ih (r0 + 1) m h2
      refine ⟨i + 1, by simpa using hi, by omega, by simpa using hcol⟩

theorem searchRows_complete (q : List Char) (hq : q ≠ []) :
    ∀ (ls : List (List Char)) (r0 r j : Nat), r < ls.length →
      q.isPrefixOf ((ls.getD r []).drop j) = true →
      ∃ m ∈ searchRows q ls r0, m.row = r0 + r ∧ m.col ≤ j ∧ j < m.col + q.length := by
  intro ls
  induction ls with
  | nil =>
    intro r0 r j hr
    simp at hr
  | cons l t ih =>
    intro r0 r j hr hpre
    cases r with
    | zero =>
      obtain ⟨x, hx, h1, h2⟩ := scanLine_complete q hq l 0 j (by omega)
        (by simpa [List.getD] using hpre)
      refine ⟨⟨r0, x⟩, ?_, by simp, h1, h2⟩
      apply List.mem_append.mpr
      exact Or.inl (List.mem_map.mpr ⟨x, hx, rfl⟩)
    | succ r' =>
      obtain ⟨m, hm, hrow, hc1, hc2⟩ := ih (r0 + 1) r' j (by simpa using hr)
        (by simpa using hpre)
      refine ⟨m, ?_, by omega, hc1, hc2⟩
      apply List.mem_append.mpr
      exact Or.inr hm

theorem searchRows_chain (q : List Char) (hq : q ≠ []) :
    ∀ (ls : List (List Char)) (r0 : Nat),
      List.Chain' (fun a b : Cursor =>
        a.row < b.row ∨ (a.row = b.row ∧ a.col + q.length ≤ b.col))
        (searchRows q ls r0) := by
  intro ls
  induction ls with
  | nil =>
    intro r0
    simp [searchRows]
  | cons l t ih =>
    intro r0
    show List.Chain' _ ((scanLine q l 0).map (fun c => Cursor.mk r0 c) ++
      searchRows q t (r0 + 1))
    refine List.chain'_append.mpr ⟨?_, ih (r0 + 1), ?_⟩
    · rw [List.chain'_map]
      apply List.Chain'.imp ?_ (scanLine_chain q hq l 0)
      intro a b hab
      right
      exact ⟨rfl, hab⟩
    · intro x hx y hy
      have hx2 : x ∈ (scanLine q l 0).map (fun c => Cursor.mk r0 c) :=
        List.mem_of_mem_getLast? hx
      have hy2 : y ∈ searchRows q t (r0 + 1) := List.mem_of_mem_head? hy
      obtain ⟨c, _, rfl⟩ := List.mem_map.mp hx2
      obtain ⟨i, _, hrow, _⟩ := searchRows_sound q t (r0 + 1) y hy2
      left
      show r0 < y.row
      omega

theorem update_matches_inBounds (lines : List (List Char)) (q : List Char) :
    ∀ m ∈ update_search_matches lines q,
      m.row < lines.length ∧ m.col ≤ (lines.getD m.row []).length := by
  intro m hm
  rw [update_search_matches] at hm
  by_cases hqe : q = []
  · rw [if_pos hqe] at hm
    simp at hm
  · rw [if_neg hqe] at hm
    obtain ⟨i, hi, hrow, hcol⟩ := searchRows_sound q lines 0 m hm
    have hri : m.row = i := by omega
    have hs := scanLine_sound q hqe (lines.getD i []) 0 m.col hcol
    refine ⟨by omega, ?_⟩
    rw [hri]
    have := hs.2.1
    omega

/-! ### Claim C7: set_query produces the non-overlapping matches -/

theorem scanLine_eval_abab :
    scanLine exQuery ['a', 'b', 'a', 'b'] 0 = [0, 2] := by
  rw [scanLine_some exQuery ['a', 'b', 'a', 'b'] 0 0 (by decide) (by decide)]
  rw [show (['a', 'b', 'a', 'b'].drop (0 + exQuery.length)) = ['a', 'b'] from rfl]
  rw [scanLine_some exQuery ['a', 'b'] (0 + 0 + exQuery.length) 0 (by decide) (by decide)]
  rw [show ((['a', 'b'] : List Char).drop (0 + exQuery.length)) = [] from rfl]
  rw [scanLine_none exQuery [] _ (by decide)]
  rfl

theorem scanLine_eval_xab :
    scanLine exQuery ['x', 'a', 'b'] 0 = [1] := by
  rw [scanLine_some exQuery ['x', 'a', 'b'] 0 1 (by decide) (by decide)]
  rw [show (['x', 'a', 'b'].drop (1 + exQuery.length)) = [] from rfl]
  rw [scanLine_none exQuery [] _ (by decide)]

/-- C7: for a non-empty query, `set_query` reports exactly the greedy
non-overlapping occurrences in row-major order: every reported match is a
real occurrence that fits in its line, every occurrence overlaps some
reported match, consecutive matches are ordered row-major with a gap of at
least the query length, the current index resets to 0 when matches exist
and to -1 otherwise; and on lines `"abab"`, `"xab"` the query `"ab"` yields
matches (0,0), (0,2), (1,1) in that order. -/
theorem set_query_spec (lines : List (List Char)) (q : List Char) (hq : q ≠ []) :
    (∀ m ∈ (set_query lines q).1,
      m.row < lines.length ∧
      m.col + q.length ≤ (lines.getD m.row []).length ∧
      q.isPrefixOf ((lines.getD m.row []).drop m.col) = true) ∧
    (∀ r, r < lines.length → ∀ j : Nat,
      q.isPrefixOf ((lines.getD r []).drop j) = true →
      ∃ m ∈ (set_query lines q).1, m.row = r ∧ m.col ≤ j ∧ j < m.col + q.length) ∧
    List.Chain' (fun a b : Cursor =>
      a.row < b.row ∨ (a.row = b.row ∧ a.col + q.length ≤ b.col))
      (set_query lines q).1 ∧
    ((set_query lines q).2 = if (set_query lines q).1.isEmpty then -1 else 0) ∧
    set_query exLines exQuery = ([⟨0, 0⟩, ⟨0, 2⟩, ⟨1, 1⟩], 0) := by
  have hms : (set_query lines q).1 = searchRows q lines 0 := by
    rw [set_query, update_search_matches, if_neg hq]
  refine ⟨?_, ?_, ?_, rfl, ?_⟩
  · intro m hm
    rw [hms] at hm
    obtain ⟨i, hi, hrow, hcol⟩ := searchRows_sound q lines 0 m hm
    have hri : m.row = i := by omega
    have hs := scanLine_sound q hq (lines.getD i []) 0 m.col hcol
    refine ⟨by omega, ?_, ?_⟩
    · rw [hri]
      have := hs.2.1
      omega
    · rw [hri]
      have h3 := hs.2.2
      simpa using h3
  · intro r hr j hpre
    obtain ⟨m, hm, hrow, h1, h2⟩ := searchRows_complete q hq lines 0 r j hr hpre
    refine ⟨m, by rw [hms]; exact hm, by omega, h1, h2⟩
  · rw [hms]
    exact searchRows_chain q hq lines 0
  · have h1 : searchRows exQuery exLines 0 = [⟨0, 0⟩, ⟨0, 2⟩, ⟨1, 1⟩] := by
      show (scanLine exQuery ['a', 'b', 'a', 'b'] 0).map (fun c => Cursor.mk 0 c) ++
        ((scanLine exQuery ['x', 'a', 'b'] 0).map (fun c => Cursor.mk 1 c) ++ []) = _
      rw [scanLine_eval_abab, scanLine_eval_xab]
      rfl
    have h2 : update_search_matches exLines exQuery = [⟨0, 0⟩, ⟨0, 2⟩, ⟨1, 1⟩] := by
      rw [update_search_matches, if_neg (by decide)]
      exact h1
    rw [set_query, h2]
    rfl

/-- Witness for C7 at the spec's example buffer and query. -/
theorem set_query_spec_witness :
    (∀ m ∈ (set_query exLines exQuery).1,
      m.row < exLines.length ∧
      m.col + exQuery.length ≤ (exLines.getD m.row []).length ∧
      exQuery.isPrefixOf ((exLines.getD m.row []).drop m.col) = true) ∧
    (∀ r, r < exLines.length → ∀ j : Nat,
      exQuery.isPrefixOf ((exLines.getD r []).drop j) = true →
      ∃ m ∈ (set_query exLines exQuery).1,
        m.row = r ∧ m.col ≤ j ∧ j < m.col + exQuery.length) ∧
    List.Chain' (fun a b : Cursor =>
      a.row < b.row ∨ (a.row = b.row ∧ a.col + exQuery.length ≤ b.col))
      (set_query exLines exQuery).1 ∧
    ((set_query exLines exQuery).2 =
      if (set_query exLines exQuery).1.isEmpty then -1 else 0) ∧
    set_query exLines exQuery = ([⟨0, 0⟩, ⟨0, 2⟩, ⟨1, 1⟩], 0) :=
  set_query_spec exLines exQuery (by decide)

/-! ### Claim C1: the cursor stays in bounds after every operation -/

theorem set_ne_nil {α : Type} (l : List α) (n : Nat) (a : α) (h : l ≠ []) :
    l.set n a ≠ [] := by
  intro hx
  have hlen := congrArg List.length hx
  rw [List.length_set] at hlen
  simp only [List.length_nil] at hlen
  exact h (List.length_eq_zero.mp hlen)

theorem append_left_ne_nil {α : Type} (a b : List α) (h : a ≠ []) : a ++ b ≠ [] := by
  intro hx
  rcases List.append_eq_nil.mp hx with ⟨h1, _⟩
  exact h h1

theorem insertAt_ne_nil {α : Type} (l : List α) (k : Nat) (x : α) :
    l.take k ++ [x] ++ l.drop k ≠ [] := by
  intro hx
  have hlen := congrArg List.length hx
  rw [length_insertAt] at hlen
  simp at hlen

theorem ne_nil_length {α : Type} (l : List α) (n : Nat) (hn : l.length = n)
    (h : 0 < n) : l ≠ [] := by
  intro hx
  subst hx
  simp only [List.length_nil] at hn
  omega

theorem indentRows_length (r1 r2 : Nat) :
    ∀ (r0 : Nat) (ls : List (List Char)),
      (indentRows r1 r2 r0 ls).length = ls.length := by
  intro r0 ls
  induction ls generalizing r0 with
  | nil => rfl
  | cons l t ih => simp [indentRows, ih]

theorem opTextInput_inBounds (ed : EditorState) (s : List Char) (hv : Valid ed) :
    CursorInBounds (opTextInput ed s).lines (opTextInput ed s).cursor := by
  have hv1 : Valid (if ed.has_selection then delete_selection ed else ed) := by
    split
    · exact delete_selection_valid ed hv
    · exact hv
  set ed1 := if ed.has_selection then delete_selection ed else ed with hed1
  obtain ⟨hne1, ⟨hrow1, hcol1⟩, _, _⟩ := hv1
  have hlines : (opTextInput ed s).lines =
      ed1.lines.set ed1.cursor.row
        ((ed1.lines.getD ed1.cursor.row []).take ed1.cursor.col ++ s ++
          (ed1.lines.getD ed1.cursor.row []).drop ed1.cursor.col) := rfl
  have hcur : (opTextInput ed s).cursor =
      ⟨ed1.cursor.row, ed1.cursor.col + s.length⟩ := rfl
  unfold CursorInBounds
  rw [hlines, hcur]
  constructor
  · simp only [List.length_set]
    exact hrow1
  · show ed1.cursor.col + s.length ≤ _
    rw [getD_set_self _ _ _ _ hrow1]
    simp only [List.length_append, List.length_take, List.length_drop]
    omega

theorem opBackspace_lines_ne (ed : EditorState) (hv : Valid ed) :
    (opBackspace ed).lines ≠ [] := by
  unfold opBackspace
  split
  · exact (delete_selection_valid ed hv).1
  · split
    · exact set_ne_nil _ _ _ hv.1
    · split
      · rename_i hrow0
        exact append_left_ne_nil _ _
          (take_ne_nil_of _ _ (set_ne_nil _ _ _ hv.1) hrow0)
      · exact hv.1

theorem opDeleteKey_lines_ne (ed : EditorState) (hv : Valid ed) :
    (opDeleteKey ed).lines ≠ [] := by
  unfold opDeleteKey
  split
  · exact (delete_selection_valid ed hv).1
  · split
    · exact set_ne_nil _ _ _ hv.1
    · split
      · exact append_left_ne_nil _ _
          (take_ne_nil_of _ _ (set_ne_nil _ _ _ hv.1) (by omega))
      · exact hv.1

theorem opCtrlD_lines_ne (ed : EditorState) (hv : Valid ed) :
    (opCtrlD ed).lines ≠ [] := by
  unfold opCtrlD
  split
  · exact set_ne_nil _ _ _ hv.1
  · split
    · exact append_left_ne_nil _ _
        (take_ne_nil_of _ _ (set_ne_nil _ _ _ hv.1) (by omega))
    · exact hv.1

theorem opReturn_lines_ne (ed : EditorState) : (opReturn ed).lines ≠ [] := by
  unfold opReturn
  exact insertAt_ne_nil _ _ _

theorem applyMove_lines (ed : EditorState) (c : Cursor) (sh : Bool) :
    (applyMove ed c sh).lines = ed.lines := by
  unfold applyMove
  split <;> rfl

theorem opTab_lines_ne (ed : EditorState) (hv : Valid ed) :
    (opTab ed).lines ≠ [] := by
  unfold opTab
  split
  · exact ne_nil_length _ ed.lines.length (indentRows_length _ _ 0 ed.lines)
      (List.length_pos.mpr hv.1)
  · exact set_ne_nil _ _ _ hv.1

theorem opShiftTab_lines_ne (ed : EditorState) (hv : Valid ed) :
    (opShiftTab ed).lines ≠ [] := by
  unfold opShiftTab
  split
  · exact ne_nil_length _ ed.lines.length (unindentRows_length _ _ 0 ed.lines)
      (List.length_pos.mpr hv.1)
  · simp only [apply_ite EditorState.lines]
    split
    · exact set_ne_nil _ _ _ hv.1
    · exact hv.1

theorem opPaste_lines_ne (ed : EditorState) (clip : List Char) (hv : Valid ed) :
    (opPaste ed clip).lines ≠ [] := by
  have hv1 : Valid (if ed.has_selection then delete_selection ed else ed) := by
    split
    · exact delete_selection_valid ed hv
    · exact hv
  show (insert_text (if ed.has_selection then delete_selection ed else ed)
    clip).lines ≠ []
  exact ne_nil_length _ _ (insertSegs_lines_length (splitNL clip) _)
    (by have := List.length_pos.mpr hv1.1; omega)

theorem opSearchJump_inBounds (ed : EditorState) (q : List Char) (idx : Nat)
    (hv : Valid ed) :
    CursorInBounds (opSearchJump ed q idx).lines (opSearchJump ed q idx).cursor := by
  unfold opSearchJump jump_to_search_match
  split
  · exact hv.2.1
  · rename_i hcond
    push_neg at hcond
    have hidx : idx < (update_search_matches ed.lines q).length := by
      have := hcond.2
      omega
    have hmem := getD_mem (update_search_matches ed.lines q) idx ed.cursor hidx
    exact update_matches_inBounds ed.lines q _ hmem

/-- C1: from a state satisfying the invariant (non-empty buffer, in-bounds
cursor and selection endpoints — any out-of-bounds access would be undefined
behaviour in the source), every single edit operation — character insert,
backspace, forward delete (Delete key and Ctrl+D), newline, arrow motion,
word motion, indent, unindent, paste, select-all and search jump — leaves
the cursor with row in [0, line_count-1] and col in [0, length(line[row])]. -/
theorem cursor_in_bounds_after_op (ed : EditorState) (op : EditOp) (hv : Valid ed) :
    CursorInBounds (applyOp ed op).lines (applyOp ed op).cursor := by
  cases op with
  | textInput s => exact opTextInput_inBounds ed s hv
  | backspace => exact clamp_cursor_inBounds _ (opBackspace_lines_ne ed hv)
  | deleteKey => exact clamp_cursor_inBounds _ (opDeleteKey_lines_ne ed hv)
  | ctrlD => exact clamp_cursor_inBounds _ (opCtrlD_lines_ne ed hv)
  | returnKey => exact clamp_cursor_inBounds _ (opReturn_lines_ne ed)
  | arrowLeft sh =>
    exact clamp_cursor_inBounds _ (by rw [applyMove_lines]; exact hv.1)
  | arrowRight sh =>
    exact clamp_cursor_inBounds _ (by rw [applyMove_lines]; exact hv.1)
  | arrowUp sh =>
    exact clamp_cursor_inBounds _ (by rw [applyMove_lines]; exact hv.1)
  | arrowDown sh =>
    exact clamp_cursor_inBounds _ (by rw [applyMove_lines]; exact hv.1)
  | wordForward => exact clamp_cursor_inBounds _ hv.1
  | wordBackward => exact clamp_cursor_inBounds _ hv.1
  | tab => exact clamp_cursor_inBounds _ (opTab_lines_ne ed hv)
  | shiftTab => exact clamp_cursor_inBounds _ (opShiftTab_lines_ne ed hv)
  | paste clip => exact clamp_cursor_inBounds _ (opPaste_lines_ne ed clip hv)
  | selectAll => exact clamp_cursor_inBounds _ hv.1
  | searchJump q idx => exact opSearchJump_inBounds ed q idx hv

/-- Witness for C1: backspace applied to the concrete valid state `edC2`. -/
theorem cursor_in_bounds_after_op_witness :
    CursorInBounds (applyOp edC2 EditOp.backspace).lines
      (applyOp edC2 EditOp.backspace).cursor :=
  cursor_in_bounds_after_op edC2 EditOp.backspace (by decide)
